import Mathlib

/-!
Verification of the merkle-race authenticated-multiway-tree engine.

The Rust sources are shallowly embedded: `usize` arithmetic is modelled on `ℕ`
with explicit checks where Rust would panic (division by zero, subtraction
underflow, out-of-bounds indexing, failed `assert!`s, `unreachable!`).  A
fallible computation returns `Except Panik α`; a possibly diverging loop is
modelled with fuel and returns `Option (Except Panik α)`, `none` meaning the
fuel ran out.  Cryptographic hash functions are idealised as free term
constructors, and the homomorphic accumulators / elliptic-curve groups of the
incremental and vector-commitment policies are modelled as abstract additive
commutative groups, mirroring the trait bounds of the generic Rust code.
-/

/-- The ways the embedded Rust code can abort. -/
inductive Panik : Type where
  | divByZero
  | underflow
  | indexOOB
  | assertFail
  | unreachableReached
  | unwrapNone
  deriving DecidableEq, Repr

/-- Checked `usize` subtraction: Rust panics on underflow. -/
def checkedSub (a b : ℕ) : Except Panik ℕ :=
  if b ≤ a then .ok (a - b) else .error .underflow

/-- Checked `usize` division: Rust panics on a zero divisor. -/
def checkedDiv (a b : ℕ) : Except Panik ℕ :=
  if b = 0 then .error .divByZero else .ok (a / b)

/-! ### NodeIndex arithmetic (src/node_index.rs)

`NodeIndex` is a flat array position; the functions below are the bodies of
`NodeIndex::child_offset`, `NodeIndex::parent` and `NodeIndex::child`. -/

namespace NodeIx

/-- `NodeIndex::child_offset`: `if self.is_root() { 0 } else { self.0 % arity }`. -/
def childOffset (idx arity : ℕ) : ℕ :=
  if idx = 0 then 0 else idx % arity

/-- `NodeIndex::parent`: `(self.0 - 1) / arity` (caller guarantees `self.0 ≠ 0`). -/
def parentIdx (idx arity : ℕ) : ℕ :=
  (idx - 1) / arity

/-- `NodeIndex::child`: `self.0 * arity + (i + 1)` (caller guarantees `i < arity`). -/
def childIdx (idx arity i : ℕ) : ℕ :=
  idx * arity + (i + 1)

end NodeIx

/-! ### Tree height and node depth

`AbstractMerkle::with_num_leaves` (src/merkle.rs) computes the height with
`while n / arity > 0 { height += 1; n /= arity }`.  The loop divides by zero
when `arity = 0` and runs forever when `arity = 1`, so the faithful model is
fuel-based: `heightFuel` returns `none` when the fuel runs out.  For the
terminating cases we also use `heightGo`/`computeHeight`, the same loop with
the structural fuel `n` (enough fuel whenever `arity ≥ 2`, see
`heightGo_of_le`). -/

/-- The height loop of `with_num_leaves`, with explicit fuel and checked
division; `none` means the fuel ran out (the loop is still running). -/
def heightFuel : ℕ → ℕ → ℕ → ℕ → Option (Except Panik ℕ)
  | 0, _, _, _ => none
  | fuel + 1, k, n, h =>
    match checkedDiv n k with
    | .error p => some (.error p)
    | .ok q => if 0 < q then heightFuel fuel k q (h + 1) else some (.ok h)

/-- The same height loop restricted to `arity ≥ 2` (where it terminates),
with the structural fuel `n`. -/
def heightGo : ℕ → ℕ → ℕ → ℕ
  | 0, _, _ => 0
  | fuel + 1, k, n => if 2 ≤ k ∧ 0 < n / k then heightGo fuel k (n / k) + 1 else 0

/-- `with_num_leaves`'s height for `arity ≥ 2`: the loop value. -/
def computeHeight (k n : ℕ) : ℕ := heightGo n k n

/-- `max_leaves` (src/lib.rs): `arity.pow(height)`. -/
def maxLeaves (arity height : ℕ) : ℕ := arity ^ height

/-- `AbstractMerkle::get_node_height` (src/merkle.rs): number of `parent`
steps to the root.  The index strictly decreases, so index+1 is enough fuel. -/
def depthGo : ℕ → ℕ → ℕ → ℕ
  | 0, _, _ => 0
  | fuel + 1, k, idx => if idx = 0 then 0 else depthGo fuel k ((idx - 1) / k) + 1

/-- Depth of a node index (root at depth 0), as computed by
`get_node_height`. -/
def nodeDepth (k idx : ℕ) : ℕ := depthGo (idx + 1) k idx

/-- `levelStart k ℓ` is the flat index of the first node on level `ℓ`
(`= 1 + k + ... + k^(ℓ-1)`, i.e. `(k^ℓ - 1)/(k - 1)`); used to reason about
`nodeDepth`. -/
def levelStart (k : ℕ) : ℕ → ℕ
  | 0 => 0
  | ℓ + 1 => k * levelStart k ℓ + 1

/-! ### Shape of the tree built by `AbstractMerkle::with_num_leaves` (src/merkle.rs) -/

/-- The descending epsilon search of `with_num_leaves`: starting from
`epsilon = arity`, decrement while `r_num(epsilon) % (arity - 1) ≠ 0`, where
`r_num(e) = last_level_max_size - num_leaves - (arity - e)`; `none` models the
`"Alin math fail"` panic reached when `epsilon` hits 0.  `M` abbreviates
`last_level_max_size - num_leaves`. -/
def findEps (k M : ℕ) : ℕ → Option ℕ
  | 0 => none
  | e + 1 => if (M - (k - (e + 1))) % (k - 1) = 0 then some (e + 1) else findEps k M e

/-- The layout fields that `with_num_leaves` computes and stores (the digest
array itself is `vec![default; totalNodes]`). -/
structure MerkleShape where
  arity : ℕ
  numInternalNodes : ℕ
  numLeaves : ℕ
  totalNodes : ℕ
  firstLastLevelLeaf : ℕ
  deriving DecidableEq, Repr

/-- Body of `with_num_leaves` after the height loop, for a given `height`.
`none` models the panics: the `"Alin math fail"` branch and the
`assert_eq!(num_second_to_last + num_last, num_leaves)`.  (The subtractions
shown never underflow when `arity ≥ 2`, since then
`num_leaves < last_level_max_size` and `num_second_to_last < max_leaves`, so
truncated subtraction agrees with Rust's checked subtraction here.) -/
def shapeGivenHeight (arity numLeaves height : ℕ) : Option MerkleShape :=
  let maxL := maxLeaves arity height
  let numInternal0 := (maxL - 1) / (arity - 1)
  if maxL < numLeaves then
    let lastLevelMaxSize := maxL * arity
    if arity ≤ lastLevelMaxSize - numLeaves then
      match findEps arity (lastLevelMaxSize - numLeaves) arity with
      | none => none
      | some eps =>
        let rNum := lastLevelMaxSize - numLeaves - (arity - eps)
        let numSecondToLast := rNum / (arity - 1)
        let numLast := (maxL - numSecondToLast - 1) * arity + eps
        if numSecondToLast + numLast = numLeaves then
          let numInternal := (maxL - 1) / (arity - 1) + maxL - numSecondToLast
          some ⟨arity, numInternal, numLeaves, numInternal + numLeaves,
            numInternal + numSecondToLast⟩
        else none
    else
      let numInternal := (maxL - 1) / (arity - 1) + maxL
      some ⟨arity, numInternal, numLeaves, numInternal + numLeaves, numInternal⟩
  else
    some ⟨arity, numInternal0, numLeaves, numInternal0 + numLeaves, numInternal0⟩

/-- `with_num_leaves` for `arity ≥ 2` (terminating height loop). -/
def withNumLeavesShape (arity numLeaves : ℕ) : Option MerkleShape :=
  shapeGivenHeight arity numLeaves (computeHeight arity numLeaves)

/-- The full entry behaviour of `with_num_leaves`, fuel-based: `none` means
the height loop is still running, `some (.error _)` a panic, `some (.ok _)`
normal return of the computed layout. -/
def withNumLeavesRun (fuel arity numLeaves : ℕ) : Option (Except Panik MerkleShape) :=
  match heightFuel fuel arity numLeaves 0 with
  | none => none
  | some (.error p) => some (.error p)
  | some (.ok h) =>
    match shapeGivenHeight arity numLeaves h with
    | none => some (.error .assertFail)
    | some s => some (.ok s)

/-- `AbstractMerkle::get_leaf_idx` (src/merkle.rs line 251):
`num_internal_nodes + leaf_pos`. -/
def getLeafIdx (s : MerkleShape) (leafPos : ℕ) : ℕ :=
  s.numInternalNodes + leafPos

/-- `AbstractMerkle::new` (src/merkle_abstract.rs): total node count
`(n - 1) / (arity - 1) + n` with `n = arity ^ height`, under checked
arithmetic. -/
def newAbstractTotalNodes (arity height : ℕ) : Except Panik ℕ := do
  let n := arity ^ height
  let a ← checkedSub n 1
  let b ← checkedSub arity 1
  let q ← checkedDiv a b
  .ok (q + n)

/-- `with_num_leaves` called with arity 1 never terminates: the claim that it
panics cannot hold at any fuel. -/
def WithNumLeavesPanics (k n : ℕ) : Prop :=
  ∃ fuel p, withNumLeavesRun fuel k n = some (.error p)

/-- `with_num_leaves` diverges on this input: at every fuel the height loop is
still running. -/
def WithNumLeavesDiverges (k n : ℕ) : Prop :=
  ∀ fuel, withNumLeavesRun fuel k n = none


/-! ### The idealised CRHF digest

`merkle_crhf.rs` hashes `"leaf:" || data` for leaves and
`"internal:" || child₀ || … || child_{arity-1}` for internal nodes, through a
pluggable `HashFuncTrait` (SHA3/Blake2).  The hash function is idealised as a
free term algebra: `leafH` is the domain-separated leaf hash of the data
string, `nodeH` the domain-separated hash of a child-digest sequence, `dflt`
the `MerkleHashValue::default()` all-zero value. -/
inductive MDigest : Type where
  | dflt : MDigest
  | leafH (s : String) : MDigest
  | nodeH (cs : List MDigest) : MDigest

/-- A Rust `Vec` of digests: a length plus contents.  Reads out of bounds via
`Vec::get` give `none`; writes out of bounds (`vec[i] = …`) panic. -/
structure NodeArray (D : Type) where
  len : ℕ
  val : ℕ → D

namespace NodeArray

/-- `Vec::get(i).cloned()` — `None` when out of bounds. -/
def read (a : NodeArray D) (i : ℕ) : Option D :=
  if i < a.len then some (a.val i) else none

/-- `vec[i] = d` — panics (`none`) when out of bounds. -/
def write (a : NodeArray D) (i : ℕ) (d : D) : Option (NodeArray D) :=
  if i < a.len then some ⟨a.len, fun j => if j = i then d else a.val j⟩ else none

end NodeArray

/-- The `TreeHasherFunc` capability as used by `merkle.rs` and implemented in
`merkle_crhf.rs` / `merkle_pp.rs` / `verkle.rs` (the defining trait file
`hashing_traits.rs` is not under src/, so the signature is taken from those
impls): a leaf hasher and a node combiner, each threading the mutable hasher
state `σ` (counters); the combiner may panic (`none`). -/
structure HasherFns (L D σ : Type) where
  hashLeafData : σ → ℕ → L → σ × D
  hashNodes : σ → D → List D → List (ℕ × D) → Option (σ × D)

/-- The overwrite loop of `HasherCRHF::hash_nodes` and of the `> arity/2`
branch of `IncrementalHasher::hash_nodes`:
`for (pos, hash) in new_children { old_children[*pos] = hash }`, panicking
(`none`) on an out-of-range position. -/
def overwriteChecked : List D → List (ℕ × D) → Option (List D)
  | old, [] => some old
  | old, (pos, d) :: rest =>
    if pos < old.length then overwriteChecked (old.set pos d) rest else none

/-- `HasherCRHF::hash_nodes` (src/merkle_crhf.rs lines 125-150): bump the
hash counter, `assert_le!(old_children.len(), arity)`, overwrite the changed
offsets into the old-children array, and hash the tagged concatenation.  The
`_old_parent_hash` argument is ignored, as in the source. -/
def hashNodesCrhf (arity cnt : ℕ) (_oldParent : MDigest) (oldChildren : List MDigest)
    (newChildren : List (ℕ × MDigest)) : Option (ℕ × MDigest) :=
  if oldChildren.length ≤ arity then
    match overwriteChecked oldChildren newChildren with
    | none => none
    | some cs => some (cnt + 1, .nodeH cs)
  else none

/-- The `HasherCRHF` policy: state is the `num_hashes` counter;
`hash_leaf_data` bumps it and returns the idealised `"leaf:" || data` hash
(the offset is ignored — it is commented out in the source). -/
def crhfHasher (arity : ℕ) : HasherFns String MDigest ℕ where
  hashLeafData := fun cnt _off s => (cnt + 1, .leafH s)
  hashNodes := fun cnt p old new => hashNodesCrhf arity cnt p old new

/-! ### The batched update engine of src/merkle.rs

`AbstractMerkle` there carries the irregular-layout fields.  The debug-only
instrumentation (`_hashed_nodes`, `debug_assert!`s) is disabled in release
builds and is not modelled; the always-on asserts are. -/

structure MerkleTree (L D σ : Type) where
  arity : ℕ
  numInternalNodes : ℕ
  numLeaves : ℕ
  nodes : NodeArray D
  hasher : σ
  firstLastLevelLeaf : ℕ

/-- The inner while-loop of `_process_update_queue` that pops every queued
entry sharing `parent`: each popped entry contributes
`(child_offset, new_digest)` in pop order.  `NodeIndex::parent` asserts the
node is not the root, so meeting the root here is a panic (`none`). -/
def collectSibs (arity parent : ℕ) :
    List (ℕ × D) → List (ℕ × D) → Option (List (ℕ × D) × List (ℕ × D))
  | acc, [] => some (acc, [])
  | acc, (idx, h) :: rest =>
    if idx = 0 then none
    else if NodeIx.parentIdx idx arity = parent then
      collectSibs arity parent (acc ++ [(NodeIx.childOffset idx arity, h)]) rest
    else some (acc, (idx, h) :: rest)

/-- The old-children loop of `_process_update_queue`: for `i in 0..arity`
fetch `nodes[child(parent, i)]`, stopping at the first missing child
(imperfect-tree boundary). -/
def oldChildrenFrom (nodes : NodeArray D) (parent arity : ℕ) : ℕ → ℕ → List D
  | _, 0 => []
  | i, rem + 1 =>
    match nodes.read (NodeIx.childIdx parent arity i) with
    | some d => d :: oldChildrenFrom nodes parent arity (i + 1) rem
    | none => []

def getOldChildren (nodes : NodeArray D) (parent arity : ℕ) : List D :=
  oldChildrenFrom nodes parent arity 0 arity

/-- The write-back loop: each new sibling's digest is stored at
`child(parent, offset)`; `NodeIndex::child` asserts `offset < arity`, and the
vector write panics when the index is out of bounds. -/
def writeSibs (nodes : NodeArray D) (parent arity : ℕ) :
    List (ℕ × D) → Option (NodeArray D)
  | [] => some nodes
  | (off, d) :: rest =>
    if off < arity then
      match nodes.write (NodeIx.childIdx parent arity off) d with
      | none => none
      | some nodes' => writeSibs nodes' parent arity rest
    else none

/-- `AbstractMerkle::_process_update_queue` (src/merkle.rs lines 392-506),
fuel-based.  Returns the updated tree and the optional output queue
(`enqueue_opt`); parents are enqueued on the output queue when present,
otherwise at the back of the work queue. -/
def processQueue (H : HasherFns L D σ) :
    ℕ → MerkleTree L D σ → List (ℕ × D) → Option (List (ℕ × D)) →
    Option (Except Panik (MerkleTree L D σ × Option (List (ℕ × D))))
  | _, t, [], enq => some (.ok (t, enq))
  | 0, _, _ :: _, _ => none
  | fuel + 1, t, (idx, hsh) :: rest, enq =>
    if idx = 0 then
      match t.nodes.write 0 hsh with
      | none => some (.error .indexOOB)
      | some nodes' => processQueue H fuel { t with nodes := nodes' } rest enq
    else
      let parent := NodeIx.parentIdx idx t.arity
      match collectSibs t.arity parent [(NodeIx.childOffset idx t.arity, hsh)] rest with
      | none => some (.error .assertFail)
      | some (newSibs, rest') =>
        let oldSibs := getOldChildren t.nodes parent t.arity
        match t.nodes.read parent with
        | none => some (.error .unwrapNone)
        | some parentOld =>
          match H.hashNodes t.hasher parentOld oldSibs newSibs with
          | none => some (.error .assertFail)
          | some (s', newHash) =>
            match writeSibs t.nodes parent t.arity newSibs with
            | none => some (.error .indexOOB)
            | some nodes' =>
              match enq with
              | some q =>
                processQueue H fuel { t with nodes := nodes', hasher := s' }
                  rest' (some (q ++ [(parent, newHash)]))
              | none =>
                processQueue H fuel { t with nodes := nodes', hasher := s' }
                  (rest' ++ [(parent, newHash)]) none

/-- `AbstractMerkle::_queuefy`: hash each updated leaf, producing the ordered
`(NodeIndex, digest)` queue, threading the hasher state. -/
def queuefyGo (H : HasherFns L D σ) (s : σ) (numInternal arity : ℕ) :
    List (ℕ × L) → σ × List (ℕ × D)
  | [] => (s, [])
  | (pos, dat) :: rest =>
    let leafIdx := numInternal + pos
    let p := H.hashLeafData s (NodeIx.childOffset leafIdx arity) dat
    let q := queuefyGo H p.1 numInternal arity rest
    (q.1, (leafIdx, p.2) :: q.2)

/-- `AbstractMerkle::has_leaves_on_two_levels`: compare the depths of the
first and the last leaf. -/
def hasLeavesOnTwoLevels (t : MerkleTree L D σ) : Bool :=
  decide (nodeDepth t.arity (t.nodes.len - t.numLeaves) ≠
    nodeDepth t.arity (t.nodes.len - 1))

/-- `AbstractMerkle::preprocess_leaves` (src/merkle.rs lines 301-359): in the
two-level case, split the batch at the first last-level position
(`position(..).unwrap_or(0)`), pre-resolve the deepest-level sub-batch into a
temporary queue whose parents land on the output queue, then append the
second-to-last-level leaves' queue. -/
def preprocessLeaves (H : HasherFns L D σ) (fuel : ℕ) (t : MerkleTree L D σ)
    (updates : List (ℕ × L)) :
    Option (Except Panik (MerkleTree L D σ × List (ℕ × D))) :=
  if hasLeavesOnTwoLevels t then
    let i := (updates.findIdx? fun u => t.firstLastLevelLeaf ≤ t.numInternalNodes + u.1).getD 0
    let secondToLast := updates.take i
    let lastLevel := updates.drop i
    let p := queuefyGo H t.hasher t.numInternalNodes t.arity lastLevel
    match processQueue H fuel { t with hasher := p.1 } p.2 (some []) with
    | none => none
    | some (.error e) => some (.error e)
    | some (.ok (t', out)) =>
      let p2 := queuefyGo H t'.hasher t'.numInternalNodes t'.arity secondToLast
      some (.ok ({ t' with hasher := p2.1 }, out.getD [] ++ p2.2))
  else
    let p := queuefyGo H t.hasher t.numInternalNodes t.arity updates
    some (.ok ({ t with hasher := p.1 }, p.2))

/-- `AbstractMerkle::update_leaves` (src/merkle.rs lines 380-385). -/
def updateLeaves (H : HasherFns L D σ) (fuel : ℕ) (t : MerkleTree L D σ)
    (updates : List (ℕ × L)) : Option (Except Panik (MerkleTree L D σ)) :=
  match preprocessLeaves H fuel t updates with
  | none => none
  | some (.error e) => some (.error e)
  | some (.ok (t', q)) =>
    match processQueue H fuel t' q none with
    | none => none
    | some (.error e) => some (.error e)
    | some (.ok (t'', _)) => some (.ok t'')

/-- Assemble the tree `with_num_leaves` returns for the CRHF policy: digest
array of `totalNodes` default values, hash counter 0. -/
def mkCrhfTree (shape : MerkleShape) : MerkleTree String MDigest ℕ :=
  ⟨shape.arity, shape.numInternalNodes, shape.numLeaves,
    ⟨shape.totalNodes, fun _ => .dflt⟩, 0, shape.firstLastLevelLeaf⟩

/-- The tree of `new_merkle_crhf_from_height::<Sha3HashFunc>(16, 3)` (see
`C8_construction` below for the shape computation). -/
def c8Tree : MerkleTree String MDigest ℕ := mkCrhfTree ⟨16, 273, 4096, 4369, 273⟩

/-- The update batch of the repo's own test `bvt_arity_16_examples`. -/
def c8Updates : List (ℕ × String) :=
  [(0, "lol"), (1, "ha"), (2, "bla"), (16, "la"), (19, "nah"),
   (1023, "rer"), (1024, "last"), (1026, "asdsd")]

def c8Run : Option (Except Panik (MerkleTree String MDigest ℕ)) :=
  updateLeaves (crhfHasher 16) 64 c8Tree c8Updates

/-- Whether the C8 scenario completes without panicking. -/
def c8NoPanic : Bool :=
  match c8Run with
  | some (.ok _) => true
  | _ => false

/-- The digest stored at index 276 (= leaf position 3, which is *not* in the
update batch) after the C8 scenario. -/
def c8Slot276 : Option MDigest :=
  match c8Run with
  | some (.ok t) => t.nodes.read 276
  | _ => none

/-! ### The simpler engine of src/merkle_abstract.rs (perfect trees)

Its `update_leaves` begins with the always-on assert
`assert!((0..updates.len() - 1).all(|i| updates[i].0 <= updates[i + 1].0))`,
whose `updates.len() - 1` underflows on an empty batch.  `new_siblings` is a
`BTreeMap`, modelled as an assoc list kept sorted by key. -/

/-- `BTreeMap::insert`: keep the assoc list sorted by key, replacing an
existing entry. -/
def btInsert (key : ℕ) (v : D) : List (ℕ × D) → List (ℕ × D)
  | [] => [(key, v)]
  | (k', v') :: rest =>
    if key < k' then (key, v) :: (k', v') :: rest
    else if key = k' then (key, v) :: rest
    else (k', v') :: btInsert key v rest

structure MerkleTreeA (L D σ : Type) where
  arity : ℕ
  n : ℕ
  nodes : NodeArray D
  hasher : σ

/-- The sibling-popping loop of `merkle_abstract.rs::update_leaves`, inserting
`(child_offset, digest)` into the `BTreeMap`; meeting the root violates
`NodeIndex::parent`'s assert. -/
def collectSibsA (arity parent : ℕ) :
    List (ℕ × D) → List (ℕ × D) → Option (List (ℕ × D) × List (ℕ × D))
  | acc, [] => some (acc, [])
  | acc, (idx, h) :: rest =>
    if idx = 0 then none
    else if NodeIx.parentIdx idx arity = parent then
      collectSibsA arity parent (btInsert (NodeIx.childOffset idx arity) h acc) rest
    else some (acc, (idx, h) :: rest)

/-- `merkle_abstract.rs`'s old-children loop: all `arity` children are read
with `self.nodes[..]` (no bounds recovery — out of range panics). -/
def oldChildrenFromA (nodes : NodeArray D) (parent arity : ℕ) :
    ℕ → ℕ → Option (List D)
  | _, 0 => some []
  | i, rem + 1 =>
    match nodes.read (NodeIx.childIdx parent arity i) with
    | some d =>
      match oldChildrenFromA nodes parent arity (i + 1) rem with
      | none => none
      | some ds => some (d :: ds)
    | none => none

/-- The propagation loop of `merkle_abstract.rs::update_leaves`
(lines 169-229), fuel-based. -/
def processQueueA (H : HasherFns L D σ) :
    ℕ → MerkleTreeA L D σ → List (ℕ × D) → Option (Except Panik (MerkleTreeA L D σ))
  | _, t, [] => some (.ok t)
  | 0, _, _ :: _ => none
  | fuel + 1, t, (idx, hsh) :: rest =>
    if idx = 0 then
      if (btInsert (NodeIx.childOffset idx t.arity) hsh []).length = 1 then
        match (btInsert (NodeIx.childOffset idx t.arity) hsh []).head? with
        | some (0, v) =>
          match t.nodes.write 0 v with
          | none => some (.error .indexOOB)
          | some nodes' => processQueueA H fuel { t with nodes := nodes' } rest
        | _ => some (.error .unreachableReached)
      else some (.error .assertFail)
    else
      let parent := NodeIx.parentIdx idx t.arity
      match collectSibsA t.arity parent
          (btInsert (NodeIx.childOffset idx t.arity) hsh []) rest with
      | none => some (.error .assertFail)
      | some (newSibs, rest') =>
        if newSibs.length ≤ t.arity then
          match oldChildrenFromA t.nodes parent t.arity 0 t.arity with
          | none => some (.error .indexOOB)
          | some oldSibs =>
            match t.nodes.read parent with
            | none => some (.error .indexOOB)
            | some parentOld =>
              match H.hashNodes t.hasher parentOld oldSibs newSibs with
              | none => some (.error .assertFail)
              | some (s', newHash) =>
                match writeSibs t.nodes parent t.arity newSibs with
                | none => some (.error .indexOOB)
                | some nodes' =>
                  processQueueA H fuel { t with nodes := nodes', hasher := s' }
                    (rest' ++ [(parent, newHash)])
        else some (.error .assertFail)

/-- The sortedness assert at the top of `merkle_abstract.rs::update_leaves`:
`assert!((0..updates.len() - 1).all(|i| updates[i].0 <= updates[i + 1].0))`.
With checked arithmetic the `len() - 1` underflows on an empty list (with
wrapping arithmetic the huge range indexes out of bounds — a panic either
way). -/
def assertSortedKeys (keys : List ℕ) : Except Panik Unit :=
  match checkedSub keys.length 1 with
  | .error p => .error p
  | .ok m =>
    if (List.range m).all (fun i => keys.getD i 0 ≤ keys.getD (i + 1) 0) then .ok ()
    else .error .assertFail

/-- `merkle_abstract.rs::get_leaf_idx`: `(num_leaves - 1) / (arity - 1) + pos`. -/
def getLeafIdxA (n arity pos : ℕ) : ℕ := (n - 1) / (arity - 1) + pos

/-- `merkle_abstract.rs::update_leaves` (lines 121-230): sortedness assert,
leaf hashing, then propagation. -/
def updateLeavesA (H : HasherFns L D σ) (fuel : ℕ) (t : MerkleTreeA L D σ)
    (updates : List (ℕ × L)) : Option (Except Panik (MerkleTreeA L D σ)) :=
  match assertSortedKeys (updates.map Prod.fst) with
  | .error p => some (.error p)
  | .ok _ =>
    let q := queuefyGo H t.hasher ((t.n - 1) / (t.arity - 1)) t.arity updates
    processQueueA H fuel { t with hasher := q.1 } q.2

/-! ### The incremental (Merkle++) policy, src/merkle_pp.rs

`MerkleppHashValue<SmallIncHash>` is the tagged digest; `hash_child`
serialises a child digest together with its offset and maps it into the fast
homomorphic-hash representation.  The Rust code is generic over
`SmallIncHash`/`FastIncHash` with `AddAssign`/`SubAssign` bounds and converts
between them by addition; both concrete instantiations (Ristretto points and
their compressed form) denote the same abelian group and both `Default`s are
the group identity, so the model uses a single additive commutative group `G`
with `hash_child` an abstract function `ψ : ℕ → MppValue G → G`. -/

inductive MppValue (G : Type) : Type where
  | internalThin (h : G)
  | internalFat (actualHash hashOfHash : G)
  | leaf (h : ℕ)
  deriving DecidableEq

/-- `Σ_{i} φ (start + i) l[i]` — the accumulation loop
`for i in 0..len { acc += contribution(i, children[i]) }`, shared by the
Merkle++ full recompute and the Verkle commitment. -/
def accumFrom {A G : Type} [AddCommGroup G] (φ : ℕ → A → G) : ℕ → List A → G
  | _, [] => 0
  | i, c :: cs => φ i c + accumFrom φ (i + 1) cs

/-- The delta loop of `IncrementalHasher::hash_nodes`
(`acc -= hash_child(pos, old); acc += hash_child(pos, new)` per changed
child), panicking (`none`) when `old_children[*pos]` is out of range. -/
def deltaAccGo {G : Type} [AddCommGroup G] (ψ : ℕ → MppValue G → G)
    (old : List (MppValue G)) : G → List (ℕ × MppValue G) → Option G
  | acc, [] => some acc
  | acc, (pos, h) :: rest =>
    match old[pos]? with
    | none => none
    | some oldc => deltaAccGo ψ old (acc - ψ pos oldc + ψ pos h) rest

/-- `IncrementalHasher::hash_nodes` (src/merkle_pp.rs lines 130-192), with
the `num_hashes` counter threaded: if more than `arity/2` children changed,
recompute the accumulator from scratch over all children (counting `arity`
contribution computations, after `assert_eq!(old_children.len(), arity)`);
otherwise start from the old parent's accumulator (which must be
`InternalThin` — anything else hits `unreachable!`) and apply one
subtraction and one addition per changed child (counting `2 × changed`,
with `assert_le!(2 × changed, arity)`).  `SmallIncHash::default()` and
`FastIncHash::default()` are the group identity. -/
def hashNodesMpp {G : Type} [AddCommGroup G] (ψ : ℕ → MppValue G → G)
    (arity cnt : ℕ) (oldParent : MppValue G) (old : List (MppValue G))
    (new : List (ℕ × MppValue G)) : Option (MppValue G × ℕ) :=
  if arity / 2 < new.length then
    match overwriteChecked old new with
    | none => none
    | some cs =>
      if cs.length = arity then
        some (.internalThin ((0 : G) + accumFrom ψ 0 cs), cnt + arity)
      else none
  else
    match oldParent with
    | .internalThin h0 =>
      match deltaAccGo ψ old 0 new with
      | none => none
      | some acc =>
        if 2 * new.length ≤ arity then
          some (.internalThin (h0 + acc), cnt + 2 * new.length)
        else none
    | _ => none

/-- The digest a full recomputation produces from a given final child array:
identity accumulator plus the sum of all per-child contributions (this is
literally what the `> arity/2` branch computes). -/
def mppRecomputeDigest {G : Type} [AddCommGroup G] (ψ : ℕ → MppValue G → G)
    (cs : List (MppValue G)) : MppValue G :=
  .internalThin ((0 : G) + accumFrom ψ 0 cs)

/-! ### The vector-commitment (Verkle) policy, src/verkle.rs

`VerkleComm<SmallGroupElem>` is the three-way tagged digest.  Scalars live in
an additive group `S`, fast group elements in `G`, compressed elements in
`Gc`; `ψ i` models `base_tables[i] * scalar` (scalar multiplication by the
i-th fixed basepoint, additive in the scalar), `compress : G → Gc` the point
compression, `hts : Gc → S` the `hash_to_scalar` map.
`vartime_subset_multiscalar_mul` computes the same weighted sum as the serial
loop, batched; its contract is the sum. -/

inductive VComm (S Gc : Type) : Type where
  | internal (g : Gc)
  | leaf (y : S)
  | empty
  deriving DecidableEq

/-- The scalar a child contributes to its parent's commitment:
`hash_to_scalar` of an internal commitment, the scalar itself for a leaf,
and 0 for `Empty` (an empty slot contributes nothing). -/
def scalarOf {S Gc : Type} [AddCommGroup S] (hts : Gc → S) : VComm S Gc → S
  | .internal g => hts g
  | .leaf y => y
  | .empty => 0

/-- The per-changed-child scalar delta of `VerkleHasher::hash_nodes`
(src/verkle.rs lines 122-161): the four legal tag transitions produce a
delta, the five remaining ones panic (`none`). -/
def childDelta {S Gc : Type} [AddCommGroup S] (hts : Gc → S) :
    VComm S Gc → VComm S Gc → Option S
  | .empty, .empty => none
  | .empty, .internal g => some (hts g)
  | .empty, .leaf y => some y
  | .internal _, .empty => none
  | .internal go, .internal gn => some (hts gn - hts go)
  | .internal _, .leaf _ => none
  | .leaf _, .empty => none
  | .leaf _, .internal _ => none
  | .leaf yo, .leaf yn => some (yn - yo)

/-- The `updates` vector built by `hash_nodes`: one `(offset, delta)` per
changed child, reading `old_children[*offset]` (out of range panics) and
panicking on an illegal transition. -/
def verkleUpdatesGo {S Gc : Type} [AddCommGroup S] (hts : Gc → S)
    (old : List (VComm S Gc)) : List (ℕ × VComm S Gc) → Option (List (ℕ × S))
  | [] => some []
  | (pos, c) :: rest =>
    match old[pos]? with
    | none => none
    | some oldc =>
      match childDelta hts oldc c with
      | none => none
      | some d =>
        match verkleUpdatesGo hts old rest with
        | none => none
        | some us => some ((pos, d) :: us)

/-- The batched multi-scalar multiplication
(`vartime_subset_multiscalar_mul`): the weighted sum of the basepoints. -/
def msm {S G : Type} [AddCommGroup G] (ψ : ℕ → S → G) (us : List (ℕ × S)) : G :=
  (us.map fun u => ψ u.1 u.2).sum

/-- `VerkleHasher::hash_nodes` (src/verkle.rs lines 110-211):
`assert_le!(new_children.len(), arity)`; build the scalar deltas;
`assert_le!(updates.len(), arity)`; count one computation per update; take
one serial scalar multiplication per update when `updates.len() ≤ 4`, a
batched multi-scalar multiplication otherwise; then the old parent must be
`Empty` (the `Internal` branch is `unreachable!`, a `Leaf` parent likewise),
and the compressed delta becomes the new `Internal` commitment. -/
def hashNodesVerkle {S G Gc : Type} [AddCommGroup S] [AddCommGroup G]
    (ψ : ℕ → S → G) (compress : G → Gc) (hts : Gc → S) (arity cnt : ℕ)
    (oldParent : VComm S Gc) (old : List (VComm S Gc))
    (new : List (ℕ × VComm S Gc)) : Option (VComm S Gc × ℕ) :=
  if new.length ≤ arity then
    match verkleUpdatesGo hts old new with
    | none => none
    | some us =>
      if us.length ≤ arity then
        let delta :=
          if us.length ≤ 4 then us.foldl (fun d u => d + ψ u.1 u.2) 0
          else msm ψ us
        match oldParent with
        | .empty => some (.internal (compress delta), cnt + us.length)
        | .internal _ => none
        | .leaf _ => none
      else none
  else none

/-- The commitment a parent's children determine:
`Σ_i base_i * scalarOf(child_i)`. -/
def verkleCommit {S G Gc : Type} [AddCommGroup S] [AddCommGroup G]
    (ψ : ℕ → S → G) (hts : Gc → S) (cs : List (VComm S Gc)) : G :=
  accumFrom (fun i c => ψ i (scalarOf hts c)) 0 cs

/-- The digest a full recomputation from the final children produces when the
stored parent is `Empty`: the compressed commitment to the final children. -/
def verkleRecomputeDigest {S G Gc : Type} [AddCommGroup S] [AddCommGroup G]
    (ψ : ℕ → S → G) (compress : G → Gc) (hts : Gc → S)
    (cs : List (VComm S Gc)) : VComm S Gc :=
  .internal (compress (verkleCommit ψ hts cs))

/-- A concrete instantiation of the Merkle++ contribution function over ℤ,
used to exercise the generic theorems on computable inputs. -/
def mppEncInt : MppValue ℤ → ℤ
  | .internalThin g => g
  | .internalFat a _ => a
  | .leaf n => (n : ℤ)

/-- A concrete contribution function `ψ i v = (i + 1) * enc v` over ℤ. -/
def psiInt (i : ℕ) (v : MppValue ℤ) : ℤ := ((i : ℤ) + 1) * mppEncInt v

/-- A concrete scalar-multiplication model over ℤ:
`base_i * s = (i + 1) * s`, additive in `s`. -/
def mulInt (i : ℕ) (s : ℤ) : ℤ := ((i : ℤ) + 1) * s

theorem heightGo_zero (k : ℕ) : ∀ f, heightGo f k 0 = 0 := by
  intro f
  cases f <;> simp [heightGo]

theorem heightGo_of_le (k : ℕ) :
    ∀ n f f', n ≤ f → n ≤ f' → heightGo f k n = heightGo f' k n := by
  intro m
  induction m using Nat.strong_induction_on with
  | _ n ih =>
    intro f f' hf hf'
    cases n with
    | zero => rw [heightGo_zero, heightGo_zero]
    | succ m =>
      rcases f with _ | g
      · exact absurd hf (by omega)
      rcases f' with _ | g'
      · exact absurd hf' (by omega)
      simp only [heightGo]
      by_cases hcond : 2 ≤ k ∧ 0 < (m + 1) / k
      · have hlt : (m + 1) / k < m + 1 :=
          Nat.div_lt_self (Nat.succ_pos m) (by omega)
        rw [if_pos hcond, if_pos hcond,
          ih ((m + 1) / k) hlt g g' (by omega) (by omega)]
      · rw [if_neg hcond, if_neg hcond]

theorem computeHeight_succ {k n : ℕ} (hk : 2 ≤ k) (hd : 0 < n / k) :
    computeHeight k n = computeHeight k (n / k) + 1 := by
  have hn : 0 < n := lt_of_lt_of_le hd (Nat.div_le_self n k)
  have hlt : n / k < n := Nat.div_lt_self hn (by omega)
  obtain ⟨m, hm⟩ : ∃ m, n = m + 1 := ⟨n - 1, by omega⟩
  subst hm
  show heightGo (m + 1) k (m + 1) = _
  simp only [heightGo, if_pos (And.intro hk hd)]
  rw [heightGo_of_le k ((m + 1) / k) m ((m + 1) / k) (by omega) le_rfl]
  rfl

theorem computeHeight_base {k n : ℕ} (hd : n / k = 0) : computeHeight k n = 0 := by
  cases n with
  | zero => rfl
  | succ m =>
    show heightGo (m + 1) k (m + 1) = 0
    simp [heightGo, hd]

/-- For `arity ≥ 2` and `n ≥ 1`, `arity ^ height ≤ n`. -/
theorem pow_computeHeight_le (k : ℕ) (hk : 2 ≤ k) :
    ∀ n, 1 ≤ n → k ^ computeHeight k n ≤ n := by
  intro m
  induction m using Nat.strong_induction_on with
  | _ n ih =>
    intro hn
    by_cases hd : 0 < n / k
    · have hn0 : 0 < n := hn
      have hlt : n / k < n := Nat.div_lt_self hn0 (by omega)
      rw [computeHeight_succ hk hd, pow_succ]
      have h1 : k ^ computeHeight k (n / k) ≤ n / k := ih (n / k) hlt hd
      calc k ^ computeHeight k (n / k) * k ≤ (n / k) * k :=
            Nat.mul_le_mul_right k h1
        _ ≤ n := Nat.div_mul_le_self n k
    · rw [computeHeight_base (Nat.eq_zero_of_not_pos hd)]
      simpa using hn

/-- For `arity ≥ 2`, `n < arity ^ (height + 1)`. -/
theorem lt_pow_computeHeight_succ (k : ℕ) (hk : 2 ≤ k) :
    ∀ n, n < k ^ (computeHeight k n + 1) := by
  intro m
  induction m using Nat.strong_induction_on with
  | _ n ih =>
    by_cases hd : 0 < n / k
    · have hn0 : 0 < n := lt_of_lt_of_le hd (Nat.div_le_self n k)
      have hlt : n / k < n := Nat.div_lt_self hn0 (by omega)
      rw [computeHeight_succ hk hd]
      have h1 : n / k < k ^ (computeHeight k (n / k) + 1) := ih (n / k) hlt
      have h2 : n < k * (n / k) + k := by
        have hdm := Nat.div_add_mod n k
        have hml : n % k < k := Nat.mod_lt n (show 0 < k by omega)
        omega
      calc n < k * (n / k) + k := h2
        _ = k * (n / k + 1) := by ring
        _ ≤ k * k ^ (computeHeight k (n / k) + 1) := Nat.mul_le_mul_left k h1
        _ = k ^ (computeHeight k (n / k) + 1 + 1) := by ring
    · rw [computeHeight_base (Nat.eq_zero_of_not_pos hd)]
      have : n < k := by
        rcases Nat.lt_or_ge n k with h | h
        · exact h
        · exact absurd (Nat.div_pos h (show 0 < k by omega)) hd
      simpa using this

theorem heightFuel_one_diverges :
    ∀ fuel h n, 1 ≤ n → heightFuel fuel 1 n h = none := by
  intro fuel
  induction fuel with
  | zero => intro h n _; rfl
  | succ f ih =>
    intro h n hn
    simp only [heightFuel, checkedDiv]
    rw [if_neg (by omega)]
    simp only [Nat.div_one]
    rw [if_pos (by omega)]
    exact ih (h + 1) n hn

/-- Claim C1: For every arity k ≥ 2, parent p and child slot i < k, the
NodeIndex arithmetic round-trips: the i-th child of p has flat index
`p*k + i + 1`, the parent of that index is `p`, and the child offset of that
index is `i`.  The first two parts hold, but the child-offset part is false on
the code: `child_offset` returns `idx % arity`, which on the i-th child equals
`(i + 1) % arity`, not `i`.  This theorem evaluates the code at the failing
input arity 2, parent 0, slot 0: the child has index 1 and parent 0 as claimed,
but its child offset is 1, not 0.  (With this offset the engine's write-back
`child_node(parent, offset)` lands on the wrong sibling slot, which makes the
repo's own test `bvt_arity_2_examples` — arity 2, 3 leaves — panic with an
out-of-bounds write; the intended body is `(self.0 - 1) % arity`.) -/
theorem C1_child_offset_bug :
    NodeIx.childIdx 0 2 0 = 1 ∧
    NodeIx.parentIdx 1 2 = 0 ∧
    NodeIx.childOffset 1 2 = 1 ∧
    NodeIx.childOffset (NodeIx.childIdx 0 2 0) 2 ≠ 0 := by
  refine ⟨rfl, rfl, rfl, ?_⟩
  decide

/-! ### Epsilon search: existence and success of the descending search -/

theorem exists_eps (k M : ℕ) (hk : 2 ≤ k) (hM : k ≤ M) :
    ∃ e, 1 ≤ e ∧ e ≤ k ∧ (M - (k - e)) % (k - 1) = 0 := by
  have hd : 1 ≤ k - 1 := by omega
  have hr : (M - 1) % (k - 1) < k - 1 := Nat.mod_lt _ (by omega)
  have hdm := Nat.div_add_mod (M - 1) (k - 1)
  refine ⟨(k - 1) - (M - 1) % (k - 1), by omega, by omega, ?_⟩
  have key : M - (k - ((k - 1) - (M - 1) % (k - 1))) = M - 1 - (M - 1) % (k - 1) := by
    omega
  have key2 : M - 1 - (M - 1) % (k - 1) = (k - 1) * ((M - 1) / (k - 1)) := by
    omega
  rw [key, key2]
  exact Nat.mul_mod_right _ _

theorem findEps_spec (k M : ℕ) :
    ∀ e, (∃ x, 1 ≤ x ∧ x ≤ e ∧ (M - (k - x)) % (k - 1) = 0) →
      ∃ eps, findEps k M e = some eps ∧ 1 ≤ eps ∧ eps ≤ e ∧
        (M - (k - eps)) % (k - 1) = 0 := by
  intro e
  induction e with
  | zero => rintro ⟨x, hx1, hx2, _⟩; omega
  | succ e ih =>
    rintro ⟨x, hx1, hx2, hx3⟩
    by_cases hc : (M - (k - (e + 1))) % (k - 1) = 0
    · exact ⟨e + 1, by simp [findEps, hc], by omega, le_rfl, hc⟩
    · have hxe : x ≤ e := by
        rcases Nat.lt_or_ge x (e + 1) with hlt | hge
        · omega
        · exfalso
          have hxx : x = e + 1 := by omega
          rw [hxx] at hx3
          exact hc hx3
      obtain ⟨eps, h1, h2, h3, h4⟩ := ih ⟨x, hx1, hxe, hx3⟩
      exact ⟨eps, by simp [findEps, hc, h1], h2, by omega, h4⟩

/-- Core arithmetic of the irregular-layout branch: for `arity ≥ 2`,
`arity^h < n < arity^(h+1)` and `last_level_max_size - n ≥ arity`, the search
finds `eps ∈ [1, arity]`, the divisibility holds, the resulting
`num_second_to_last` is below `arity^h`, and the split sums to `n`. -/
theorem epsBranch (k n h : ℕ) (hk : 2 ≤ k)
    (hgt : k ^ h < n) (hlt : n < k ^ (h + 1)) (hM : k ≤ k ^ h * k - n) :
    ∃ eps, findEps k (k ^ h * k - n) k = some eps ∧ 1 ≤ eps ∧ eps ≤ k ∧
      (k - 1) ∣ (k ^ h * k - n - (k - eps)) ∧
      (k ^ h * k - n - (k - eps)) / (k - 1) < k ^ h ∧
      (k ^ h * k - n - (k - eps)) / (k - 1) +
        ((k ^ h - (k ^ h * k - n - (k - eps)) / (k - 1) - 1) * k + eps) = n := by
  have hpow : k ^ (h + 1) = k ^ h * k := pow_succ k h
  obtain ⟨x, hx1, hx2, hx3⟩ := exists_eps k (k ^ h * k - n) hk hM
  obtain ⟨eps, hfind, he1, he2, he3⟩ := findEps_spec k (k ^ h * k - n) k ⟨x, hx1, hx2, hx3⟩
  have hdvd : (k - 1) ∣ (k ^ h * k - n - (k - eps)) := Nat.dvd_of_mod_eq_zero he3
  obtain ⟨q, hq⟩ := hdvd
  have hdivq : (k ^ h * k - n - (k - eps)) / (k - 1) = q := by
    rw [hq]
    exact Nat.mul_div_cancel_left q (by omega)
  -- bound `q < k ^ h`
  have hsub1 : (k - 1) * k ^ h = k * k ^ h - 1 * k ^ h := Nat.sub_mul k 1 (k ^ h)
  have hcomm1 : k * k ^ h = k ^ h * k := Nat.mul_comm k (k ^ h)
  have hnA : n < k ^ h * k := by rw [← hpow]; exact hlt
  have hql : (k - 1) * q < (k - 1) * k ^ h := by
    rw [hsub1, hcomm1]
    omega
  have hqlt : q < k ^ h := Nat.lt_of_mul_lt_mul_left hql
  refine ⟨eps, hfind, he1, he2, ⟨q, hq⟩, ?_, ?_⟩
  · rw [hdivq]; exact hqlt
  · rw [hdivq]
    -- the split identity, assembled linearly over the product atoms
    have hsub2 : (k - 1) * q = k * q - 1 * q := Nat.sub_mul k 1 q
    have hsub3 : (k ^ h - q - 1) * k = k ^ h * k - q * k - 1 * k :=
      by rw [Nat.sub_mul, Nat.sub_mul]
    have hcomm2 : q * k = k * q := Nat.mul_comm q k
    have hq' : k ^ h * k - n - (k - eps) = k * q - 1 * q := by rw [hq, hsub2]
    have hqmul : q * 1 ≤ q * k := Nat.mul_le_mul_left q (by omega)
    have hqk : q * k ≤ (k ^ h - 1) * k := Nat.mul_le_mul_right k (by omega)
    have hsub4 : (k ^ h - 1) * k = k ^ h * k - 1 * k := Nat.sub_mul (k ^ h) 1 k
    rw [hsub3]
    omega

/-! ### Levels: geometric prefix sums and node depth -/

theorem levelStart_succ_eq (k : ℕ) : ∀ ℓ, levelStart k (ℓ + 1) = levelStart k ℓ + k ^ ℓ := by
  intro ℓ
  induction ℓ with
  | zero => simp [levelStart]
  | succ ℓ ih =>
    show k * levelStart k (ℓ + 1) + 1 = (k * levelStart k ℓ + 1) + k ^ (ℓ + 1)
    rw [ih]
    ring

theorem levelStart_mul (k : ℕ) (hk : 2 ≤ k) :
    ∀ ℓ, (k - 1) * levelStart k ℓ = k ^ ℓ - 1 := by
  intro ℓ
  induction ℓ with
  | zero => simp [levelStart]
  | succ ℓ ih =>
    show (k - 1) * (k * levelStart k ℓ + 1) = k ^ (ℓ + 1) - 1
    have h1 : (k - 1) * (k * levelStart k ℓ + 1) =
        k * ((k - 1) * levelStart k ℓ) + (k - 1) := by ring
    rw [h1, ih]
    have hpos : 1 ≤ k ^ ℓ := Nat.one_le_pow ℓ k (by omega)
    have h2 : k * (k ^ ℓ - 1) = k ^ ℓ * k - 1 * k := by
      rw [Nat.mul_comm, Nat.sub_mul]
    have h3 : k ^ (ℓ + 1) = k ^ ℓ * k := pow_succ k ℓ
    have h4 : 1 * k ≤ k ^ ℓ * k := Nat.mul_le_mul_right k hpos
    rw [h2, h3]
    omega

theorem levelStart_div (k : ℕ) (hk : 2 ≤ k) (ℓ : ℕ) :
    (k ^ ℓ - 1) / (k - 1) = levelStart k ℓ := by
  rw [← levelStart_mul k hk ℓ]
  exact Nat.mul_div_cancel_left _ (by omega)

theorem depthGo_of_lt (k : ℕ) :
    ∀ idx f f', idx < f → idx < f' → depthGo f k idx = depthGo f' k idx := by
  intro j
  induction j using Nat.strong_induction_on with
  | _ idx ih =>
    intro f f' hf hf'
    rcases f with _ | g
    · exact absurd hf (by omega)
    rcases f' with _ | g'
    · exact absurd hf' (by omega)
    by_cases h0 : idx = 0
    · subst h0; simp [depthGo]
    · simp only [depthGo, if_neg h0]
      have hp : (idx - 1) / k < idx :=
        lt_of_le_of_lt (Nat.div_le_self _ _) (by omega)
      rw [ih ((idx - 1) / k) hp g g' (by omega) (by omega)]

theorem nodeDepth_succ (k idx : ℕ) (h0 : idx ≠ 0) :
    nodeDepth k idx = nodeDepth k ((idx - 1) / k) + 1 := by
  show depthGo (idx + 1) k idx = _
  simp only [depthGo, if_neg h0]
  have hp : (idx - 1) / k < idx :=
    lt_of_le_of_lt (Nat.div_le_self _ _) (by omega)
  rw [depthGo_of_lt k ((idx - 1) / k) idx ((idx - 1) / k + 1) hp (by omega)]
  rfl

theorem nodeDepth_range (k : ℕ) (hk : 2 ≤ k) :
    ∀ ℓ idx, levelStart k ℓ ≤ idx → idx < levelStart k ℓ + k ^ ℓ →
      nodeDepth k idx = ℓ := by
  intro ℓ
  induction ℓ with
  | zero =>
    intro idx h1 h2
    have : idx = 0 := by simpa [levelStart] using And.intro h1 h2
    subst this; rfl
  | succ ℓ ih =>
    intro idx h1 h2
    have h0 : idx ≠ 0 := by
      have : 1 ≤ levelStart k (ℓ + 1) := by show 1 ≤ k * _ + 1; omega
      omega
    rw [nodeDepth_succ k idx h0]
    have hklt : 0 < k := by omega
    have hlow : levelStart k ℓ ≤ (idx - 1) / k := by
      rw [Nat.le_div_iff_mul_le hklt]
      show levelStart k ℓ * k ≤ idx - 1
      have : k * levelStart k ℓ + 1 ≤ idx := h1
      have hc : levelStart k ℓ * k = k * levelStart k ℓ := Nat.mul_comm _ _
      omega
    have hhigh : (idx - 1) / k < levelStart k ℓ + k ^ ℓ := by
      rw [Nat.div_lt_iff_lt_mul hklt]
      have hup : idx < (k * levelStart k ℓ + 1) + k ^ (ℓ + 1) := h2
      have hpows : k ^ (ℓ + 1) = k ^ ℓ * k := pow_succ k ℓ
      have hdist : (levelStart k ℓ + k ^ ℓ) * k =
          levelStart k ℓ * k + k ^ ℓ * k := Nat.add_mul _ _ _
      have hc : levelStart k ℓ * k = k * levelStart k ℓ := Nat.mul_comm _ _
      omega
    rw [ih ((idx - 1) / k) hlow hhigh]

/-! ### The two branches of the irregular-layout construction, made explicit -/

/-- In the epsilon branch (`num_leaves > max_leaves` and
`last_level_max_size - num_leaves ≥ arity`), `with_num_leaves` succeeds and
its stored fields are as below. -/
theorem shape_eps (k n : ℕ) (hk : 2 ≤ k) (hgt : k ^ computeHeight k n < n)
    (hM : k ≤ k ^ computeHeight k n * k - n) :
    ∃ eps numSec,
      findEps k (k ^ computeHeight k n * k - n) k = some eps ∧
      numSec = (k ^ computeHeight k n * k - n - (k - eps)) / (k - 1) ∧
      numSec < k ^ computeHeight k n ∧ 1 ≤ eps ∧ eps ≤ k ∧
      (k - 1) ∣ (k ^ computeHeight k n * k - n - (k - eps)) ∧
      numSec + ((k ^ computeHeight k n - numSec - 1) * k + eps) = n ∧
      withNumLeavesShape k n =
        some ⟨k, (k ^ computeHeight k n - 1) / (k - 1) + k ^ computeHeight k n - numSec, n,
          (k ^ computeHeight k n - 1) / (k - 1) + k ^ computeHeight k n - numSec + n,
          (k ^ computeHeight k n - 1) / (k - 1) + k ^ computeHeight k n - numSec + numSec⟩ := by
  have hlt : n < k ^ (computeHeight k n + 1) := lt_pow_computeHeight_succ k hk n
  obtain ⟨eps, hfind, he1, he2, hdvd, hqlt, hsum⟩ :=
    epsBranch k n (computeHeight k n) hk hgt hlt hM
  refine ⟨eps, _, hfind, rfl, hqlt, he1, he2, hdvd, hsum, ?_⟩
  rw [withNumLeavesShape, shapeGivenHeight]
  simp only [maxLeaves]
  rw [if_pos hgt, if_pos hM, hfind]
  simp only []
  rw [if_pos hsum]

/-- In the other irregular branch (`last_level_max_size - num_leaves < arity`),
all leaves go to the deepest level. -/
theorem shape_noeps (k n : ℕ) (hgt : k ^ computeHeight k n < n)
    (hM : ¬ k ≤ k ^ computeHeight k n * k - n) :
    withNumLeavesShape k n =
      some ⟨k, (k ^ computeHeight k n - 1) / (k - 1) + k ^ computeHeight k n, n,
        (k ^ computeHeight k n - 1) / (k - 1) + k ^ computeHeight k n + n,
        (k ^ computeHeight k n - 1) / (k - 1) + k ^ computeHeight k n⟩ := by
  rw [withNumLeavesShape, shapeGivenHeight]
  simp only [maxLeaves]
  rw [if_pos hgt, if_neg hM]

/-- Claim C3: for every arity ≥ 2 and num_leaves beyond `arity^height` with
`last_level_max_size - num_leaves ≥ arity`, the descending search finds
`epsilon ∈ [1, arity]` with the divisibility property, so the
`"Alin math fail"` panic is unreachable, the `assert_eq!` on the split holds
(`num_second_to_last + num_last = num_leaves`), and the construction returns
normally. -/
theorem C3_epsilon_search (k n : ℕ) (hk : 2 ≤ k)
    (hgt : maxLeaves k (computeHeight k n) < n)
    (hM : k ≤ maxLeaves k (computeHeight k n) * k - n) :
    ∃ eps, findEps k (maxLeaves k (computeHeight k n) * k - n) k = some eps ∧
      1 ≤ eps ∧ eps ≤ k ∧
      (k - 1) ∣ (maxLeaves k (computeHeight k n) * k - n - (k - eps)) ∧
      (maxLeaves k (computeHeight k n) * k - n - (k - eps)) / (k - 1) +
        ((maxLeaves k (computeHeight k n) -
            (maxLeaves k (computeHeight k n) * k - n - (k - eps)) / (k - 1) - 1) * k +
          eps) = n ∧
      (withNumLeavesShape k n).isSome = true := by
  simp only [maxLeaves] at *
  obtain ⟨eps, numSec, hfind, hnum, _, he1, he2, hdvd, hsum, hshape⟩ :=
    shape_eps k n hk hgt hM
  subst hnum
  exact ⟨eps, hfind, he1, he2, hdvd, hsum, by rw [hshape]; rfl⟩

/-- Witness for C3 at arity 3, num_leaves 10 (the spec's worked example). -/
theorem C3_epsilon_search_witness :
    (2 ≤ 3 ∧ maxLeaves 3 (computeHeight 3 10) < 10 ∧
      3 ≤ maxLeaves 3 (computeHeight 3 10) * 3 - 10) ∧
    (∃ eps, findEps 3 (maxLeaves 3 (computeHeight 3 10) * 3 - 10) 3 = some eps ∧
      1 ≤ eps ∧ eps ≤ 3 ∧
      (3 - 1) ∣ (maxLeaves 3 (computeHeight 3 10) * 3 - 10 - (3 - eps)) ∧
      (maxLeaves 3 (computeHeight 3 10) * 3 - 10 - (3 - eps)) / (3 - 1) +
        ((maxLeaves 3 (computeHeight 3 10) -
            (maxLeaves 3 (computeHeight 3 10) * 3 - 10 - (3 - eps)) / (3 - 1) - 1) * 3 +
          eps) = 10 ∧
      (withNumLeavesShape 3 10).isSome = true) :=
  ⟨by decide, C3_epsilon_search 3 10 (by decide) (by decide) (by decide)⟩

/-- Claim C2 (amended): for every tree built by `with_num_leaves` whose leaves
occupy two levels, the position-to-index map is contiguous from
`num_internal_nodes`, positions whose flat index lies below
`first_last_level_leaf` are on the *second-to-last* level (depth = height),
positions at or beyond it are on the deepest level (depth = height + 1), and
every second-to-last-level position precedes every deepest-level position.
(The original claim had the two levels swapped: it said the deepest-level
leaves come first; see the counterexample.) -/
theorem C2_leaf_mapping (k n : ℕ) (hk : 2 ≤ k)
    (hgt : maxLeaves k (computeHeight k n) < n) :
    ∃ s, withNumLeavesShape k n = some s ∧
      (∀ pos, getLeafIdx s pos = s.numInternalNodes + pos) ∧
      (∀ pos, pos < n → getLeafIdx s pos < s.firstLastLevelLeaf →
        nodeDepth k (getLeafIdx s pos) = computeHeight k n) ∧
      (∀ pos, pos < n → s.firstLastLevelLeaf ≤ getLeafIdx s pos →
        nodeDepth k (getLeafIdx s pos) = computeHeight k n + 1) ∧
      (∀ pos pos', pos < n → pos' < n →
        getLeafIdx s pos < s.firstLastLevelLeaf →
        s.firstLastLevelLeaf ≤ getLeafIdx s pos' → pos < pos') := by
  simp only [maxLeaves] at hgt
  have hlt : n < k ^ (computeHeight k n + 1) := lt_pow_computeHeight_succ k hk n
  have hQ : (k ^ computeHeight k n - 1) / (k - 1) = levelStart k (computeHeight k n) :=
    levelStart_div k hk (computeHeight k n)
  have hLS : levelStart k (computeHeight k n + 1) =
      levelStart k (computeHeight k n) + k ^ computeHeight k n :=
    levelStart_succ_eq k (computeHeight k n)
  by_cases hM : k ≤ k ^ computeHeight k n * k - n
  · obtain ⟨eps, numSec, _, _, hqlt, _, _, _, _, hshape⟩ := shape_eps k n hk hgt hM
    refine ⟨_, hshape, fun pos => rfl, ?_, ?_, ?_⟩
    · intro pos hpos hbelow
      simp only [getLeafIdx] at hbelow ⊢
      simp only [hQ] at hbelow ⊢
      apply nodeDepth_range k hk (computeHeight k n)
      · omega
      · omega
    · intro pos hpos habove
      simp only [getLeafIdx] at habove ⊢
      simp only [hQ] at habove ⊢
      apply nodeDepth_range k hk (computeHeight k n + 1)
      · omega
      · omega
    · intro pos pos' _ _ hbelow habove
      simp only [getLeafIdx] at hbelow habove
      omega
  · have hshape := shape_noeps k n hgt hM
    refine ⟨_, hshape, fun pos => rfl, ?_, ?_, ?_⟩
    · intro pos hpos hbelow
      simp only [getLeafIdx] at hbelow
      omega
    · intro pos hpos habove
      simp only [getLeafIdx] at habove ⊢
      simp only [hQ] at habove ⊢
      apply nodeDepth_range k hk (computeHeight k n + 1)
      · omega
      · omega
    · intro pos pos' _ _ hbelow habove
      simp only [getLeafIdx] at hbelow habove
      omega

/-- Witness for the amended C2 at arity 2, num_leaves 10. -/
theorem C2_leaf_mapping_witness :
    (2 ≤ 2 ∧ maxLeaves 2 (computeHeight 2 10) < 10) ∧
    (∃ s, withNumLeavesShape 2 10 = some s ∧
      (∀ pos, getLeafIdx s pos = s.numInternalNodes + pos) ∧
      (∀ pos, pos < 10 → getLeafIdx s pos < s.firstLastLevelLeaf →
        nodeDepth 2 (getLeafIdx s pos) = computeHeight 2 10) ∧
      (∀ pos, pos < 10 → s.firstLastLevelLeaf ≤ getLeafIdx s pos →
        nodeDepth 2 (getLeafIdx s pos) = computeHeight 2 10 + 1) ∧
      (∀ pos pos', pos < 10 → pos' < 10 →
        getLeafIdx s pos < s.firstLastLevelLeaf →
        s.firstLastLevelLeaf ≤ getLeafIdx s pos' → pos < pos')) :=
  ⟨by decide, C2_leaf_mapping 2 10 (by decide) (by decide)⟩

/-- Counterexample to claim C2 as stated: for arity 2, num_leaves 10 the tree
has height 3; leaf position 0 has flat index 9 = num_internal_nodes, which is
below first_last_level_leaf = 15, yet it sits at depth 3 (the second-to-last
level) while the deepest leaf level present is depth 4 (e.g. position 9, index
18).  So the deepest-level leaves are mapped *last*, not first, and an index
below `first_last_level_leaf` is *not* on the deepest level. -/
theorem C2_counterexample :
    withNumLeavesShape 2 10 = some ⟨2, 9, 10, 19, 15⟩ ∧
    computeHeight 2 10 = 3 ∧
    getLeafIdx ⟨2, 9, 10, 19, 15⟩ 0 = 9 ∧ 9 < 15 ∧
    nodeDepth 2 9 = 3 ∧
    getLeafIdx ⟨2, 9, 10, 19, 15⟩ 9 = 18 ∧
    nodeDepth 2 18 = 4 := by
  decide

/-! ### Construction with arity < 2 (claim C9) -/

/-- Claim C9 (amended): `merkle_abstract.rs`'s `new` fails fatally for every
arity < 2 (underflow at arity 0, division by zero at arity 1); `merkle.rs`'s
`with_num_leaves` panics with a division by zero at arity 0, but at arity 1
its height loop never terminates — a divergence, not a panic. -/
theorem C9_arity_lt_two (n h fuel : ℕ) (hn : 1 ≤ n) :
    (1 ≤ fuel → withNumLeavesRun fuel 0 n = some (.error .divByZero)) ∧
    withNumLeavesRun fuel 1 n = none ∧
    newAbstractTotalNodes 0 h = .error .underflow ∧
    newAbstractTotalNodes 1 h = .error .divByZero := by
  refine ⟨?_, ?_, ?_, ?_⟩
  · intro hf
    rcases fuel with _ | g
    · exact absurd hf (by omega)
    · rfl
  · rw [withNumLeavesRun, heightFuel_one_diverges fuel 0 n hn]
  · cases h with
    | zero => rfl
    | succ m =>
      have hz : (0 : ℕ) ^ (m + 1) = 0 := by simp
      simp [newAbstractTotalNodes, hz, checkedSub, checkedDiv]
      rfl
  · have ho : (1 : ℕ) ^ h = 1 := one_pow h
    simp [newAbstractTotalNodes, ho, checkedSub, checkedDiv]
    rfl

/-- Witness for the amended C9 at num_leaves 1, height 0, fuel 1. -/
theorem C9_arity_lt_two_witness :
    (1 ≤ 1) ∧
    ((1 ≤ 1 → withNumLeavesRun 1 0 1 = some (.error .divByZero)) ∧
      withNumLeavesRun 1 1 1 = none ∧
      newAbstractTotalNodes 0 0 = .error .underflow ∧
      newAbstractTotalNodes 1 0 = .error .divByZero) :=
  ⟨le_rfl, C9_arity_lt_two 1 0 1 le_rfl⟩

/-- Counterexample to claim C9 as stated: at arity 1 and num_leaves 1,
`with_num_leaves` does not panic — its height loop runs forever (at every
fuel the run is still in progress, and no fuel yields a panic). -/
theorem C9_counterexample :
    WithNumLeavesDiverges 1 1 ∧ ¬ WithNumLeavesPanics 1 1 := by
  have hdiv : WithNumLeavesDiverges 1 1 := by
    intro fuel
    rw [withNumLeavesRun, heightFuel_one_diverges fuel 0 1 le_rfl]
  refine ⟨hdiv, ?_⟩
  rintro ⟨fuel, p, hp⟩
  rw [hdiv fuel] at hp
  exact Option.noConfusion hp

/-! ### The arity-16, height-3 scenario (claim C8) -/

set_option maxRecDepth 10000 in
/-- Claim C8: the code-bug evidence.  `new_merkle_crhf_from_height(16, 3)`
builds the shape `⟨16, 273, 4096, 4369, 273⟩`; running the batch of
`bvt_arity_16_examples` completes without panicking, but the digest slot 276 —
leaf position 3, which is in none of the eight updates and, being a leaf slot
(276 ≥ 273), is no ancestor of any update — changes from the default digest to
`leafH "bla"` (the digest of updated leaf position 2).  The root cause is the
`child_offset` slip shown in `C1_child_offset_bug`: the write-back
`child_node(parent, offset)` stores each digest one sibling slot to the
right. -/
theorem C8_frame_violation :
    withNumLeavesShape 16 4096 = some ⟨16, 273, 4096, 4369, 273⟩ ∧
    c8NoPanic = true ∧
    c8Tree.nodes.read 276 = some MDigest.dflt ∧
    c8Slot276 = some (MDigest.leafH "bla") ∧
    (∀ u ∈ c8Updates, 273 + u.1 ≠ 276) ∧
    273 ≤ 276 :=
  ⟨by decide, by decide, rfl, rfl, by decide, by decide⟩

/-! ### The CRHF combiner in isolation (claim C6) -/

theorem overwriteChecked_spec {D : Type} :
    ∀ (new : List (ℕ × D)) (old : List D),
      (∀ q ∈ new, q.1 < old.length) →
      ∃ cs, overwriteChecked old new = some cs ∧ cs.length = old.length ∧
        (∀ j, j ∉ new.map Prod.fst → cs[j]? = old[j]?) ∧
        ((new.map Prod.fst).Nodup → ∀ q ∈ new, cs[q.1]? = some q.2) := by
  intro new
  induction new with
  | nil =>
    intro old _
    exact ⟨old, rfl, rfl, fun _ _ => rfl, fun _ q hq => absurd hq (List.not_mem_nil q)⟩
  | cons pd rest ih =>
    intro old hpos
    obtain ⟨p, d⟩ := pd
    have hp : p < old.length := hpos (p, d) (List.mem_cons_self _ _)
    have hpos' : ∀ q ∈ rest, q.1 < (old.set p d).length := by
      intro q hq
      rw [List.length_set]
      exact hpos q (List.mem_cons_of_mem _ hq)
    obtain ⟨cs, hcs, hlen, hnm, hm⟩ := ih (old.set p d) hpos'
    have hstep : overwriteChecked old ((p, d) :: rest) = some cs := by
      simp only [overwriteChecked, if_pos hp]
      exact hcs
    refine ⟨cs, hstep, by rw [hlen, List.length_set], ?_, ?_⟩
    · intro j hj
      simp only [List.map_cons, List.mem_cons, not_or] at hj
      rw [hnm j (by simpa using hj.2)]
      exact List.getElem?_set_ne (show p ≠ j from fun h => hj.1 h.symm)
    · intro hnd q hq
      simp only [List.map_cons, List.nodup_cons] at hnd
      rcases List.mem_cons.mp hq with heq | hmem
      · subst heq
        rw [hnm p (by simpa using hnd.1)]
        exact List.getElem?_set_self hp
      · exact hm hnd.2 q hmem

/-- Claim C6: the CRHF policy's `hash_nodes` returns exactly the idealised
hash of the `"internal:"`-tagged child-digest sequence obtained by overwriting
the changed offsets into the old-children array; it counts exactly one hash
computation regardless of how many children changed, and the result does not
depend on the old parent digest. -/
theorem C6_crhf_hash_nodes (arity cnt : ℕ) (p p' : MDigest) (old : List MDigest)
    (new : List (ℕ × MDigest)) (hlen : old.length ≤ arity)
    (hpos : ∀ q ∈ new, q.1 < old.length) (hnd : (new.map Prod.fst).Nodup) :
    ∃ cs, hashNodesCrhf arity cnt p old new = some (cnt + 1, .nodeH cs) ∧
      cs.length = old.length ∧
      (∀ q ∈ new, cs[q.1]? = some q.2) ∧
      (∀ j, j ∉ new.map Prod.fst → cs[j]? = old[j]?) ∧
      hashNodesCrhf arity cnt p old new = hashNodesCrhf arity cnt p' old new := by
  obtain ⟨cs, hcs, hl, hnm, hm⟩ := overwriteChecked_spec new old hpos
  refine ⟨cs, ?_, hl, hm hnd, hnm, rfl⟩
  simp only [hashNodesCrhf, if_pos hlen, hcs]

/-- Witness for C6: arity 3, two old children, one change at offset 1. -/
theorem C6_crhf_hash_nodes_witness :
    (([MDigest.dflt, MDigest.leafH "a"] : List MDigest).length ≤ 3 ∧
      (∀ q ∈ [((1 : ℕ), MDigest.leafH "b")], q.1 <
        ([MDigest.dflt, MDigest.leafH "a"] : List MDigest).length) ∧
      (([((1 : ℕ), MDigest.leafH "b")].map Prod.fst).Nodup)) ∧
    (∃ cs, hashNodesCrhf 3 7 MDigest.dflt [MDigest.dflt, MDigest.leafH "a"]
        [(1, MDigest.leafH "b")] = some (7 + 1, .nodeH cs) ∧
      cs.length = ([MDigest.dflt, MDigest.leafH "a"] : List MDigest).length ∧
      (∀ q ∈ [((1 : ℕ), MDigest.leafH "b")], cs[q.1]? = some q.2) ∧
      (∀ j, j ∉ [((1 : ℕ), MDigest.leafH "b")].map Prod.fst →
        cs[j]? = ([MDigest.dflt, MDigest.leafH "a"] : List MDigest)[j]?) ∧
      hashNodesCrhf 3 7 MDigest.dflt [MDigest.dflt, MDigest.leafH "a"]
          [(1, MDigest.leafH "b")] =
        hashNodesCrhf 3 7 (MDigest.leafH "other") [MDigest.dflt, MDigest.leafH "a"]
          [(1, MDigest.leafH "b")]) :=
  ⟨⟨by decide, by decide, by decide⟩,
    C6_crhf_hash_nodes 3 7 MDigest.dflt (MDigest.leafH "other")
      [MDigest.dflt, MDigest.leafH "a"] [(1, MDigest.leafH "b")]
      (by decide) (by decide) (by decide)⟩

/-! ### Empty update batch (claim C10) -/

/-- Claim C10: for every tree, `merkle_abstract.rs::update_leaves` with an
empty batch panics instead of acting as a no-op: the sortedness assert
evaluates `updates.len() - 1` on the unsigned zero length, which underflows
before anything else runs. -/
theorem C10_empty_batch_panics {L D σ : Type} (H : HasherFns L D σ) (fuel : ℕ)
    (t : MerkleTreeA L D σ) :
    updateLeavesA H fuel t [] = some (.error .underflow) := rfl

/-- Witness for C10 at a concrete CRHF tree. -/
theorem C10_empty_batch_panics_witness :
    updateLeavesA (crhfHasher 2) 1 ⟨2, 3, ⟨6, fun _ => MDigest.dflt⟩, 0⟩ [] =
      some (.error .underflow) :=
  C10_empty_batch_panics (crhfHasher 2) 1 ⟨2, 3, ⟨6, fun _ => MDigest.dflt⟩, 0⟩

/-! ### Algebra of the incremental accumulator -/

theorem overwriteChecked_length {D : Type} :
    ∀ (new : List (ℕ × D)) (old cs : List D),
      overwriteChecked old new = some cs → cs.length = old.length := by
  intro new
  induction new with
  | nil =>
    intro old cs h
    simp only [overwriteChecked, Option.some_inj] at h
    rw [← h]
  | cons pd rest ih =>
    intro old cs h
    obtain ⟨p, d⟩ := pd
    by_cases hp : p < old.length
    · simp only [overwriteChecked, if_pos hp] at h
      rw [ih (old.set p d) cs h, List.length_set]
    · simp [overwriteChecked, if_neg hp] at h

theorem accumFrom_set {A G : Type} [AddCommGroup G] (φ : ℕ → A → G) :
    ∀ (l : List A) (i p : ℕ) (d c : A), l[p]? = some c →
      accumFrom φ i (l.set p d) = accumFrom φ i l - φ (i + p) c + φ (i + p) d := by
  intro l
  induction l with
  | nil => intro i p d c h; simp at h
  | cons x xs ih =>
    intro i p d c h
    cases p with
    | zero =>
      simp only [List.getElem?_cons_zero, Option.some_inj] at h
      subst h
      show φ i d + accumFrom φ (i + 1) xs =
        (φ i x + accumFrom φ (i + 1) xs) - φ (i + 0) x + φ (i + 0) d
      rw [Nat.add_zero]
      abel_nf
    | succ p =>
      simp only [List.getElem?_cons_succ] at h
      show φ i x + accumFrom φ (i + 1) (xs.set p d) =
        (φ i x + accumFrom φ (i + 1) xs) - φ (i + (p + 1)) c + φ (i + (p + 1)) d
      rw [ih (i + 1) p d c h]
      have hidx : i + (p + 1) = i + 1 + p := by omega
      rw [hidx]
      abel

theorem deltaAccGo_congr {G : Type} [AddCommGroup G] (ψ : ℕ → MppValue G → G) :
    ∀ (new : List (ℕ × MppValue G)) (old old' : List (MppValue G)) (acc : G),
      (∀ q ∈ new, old[q.1]? = old'[q.1]?) →
      deltaAccGo ψ old acc new = deltaAccGo ψ old' acc new := by
  intro new
  induction new with
  | nil => intro old old' acc _; rfl
  | cons pd rest ih =>
    intro old old' acc hsame
    obtain ⟨p, d⟩ := pd
    have hp := hsame (p, d) (List.mem_cons_self _ _)
    show (match old[p]? with
      | none => none
      | some oldc => deltaAccGo ψ old (acc - ψ p oldc + ψ p d) rest) =
      (match old'[p]? with
      | none => none
      | some oldc => deltaAccGo ψ old' (acc - ψ p oldc + ψ p d) rest)
    rw [hp]
    cases old'[p]? with
    | none => rfl
    | some oldc =>
      exact ih old old' (acc - ψ p oldc + ψ p d)
        (fun q hq => hsame q (List.mem_cons_of_mem _ hq))

theorem deltaAccGo_isSome {G : Type} [AddCommGroup G] (ψ : ℕ → MppValue G → G) :
    ∀ (new : List (ℕ × MppValue G)) (old : List (MppValue G)) (acc : G),
      (∀ q ∈ new, q.1 < old.length) →
      ∃ g, deltaAccGo ψ old acc new = some g := by
  intro new
  induction new with
  | nil => intro old acc _; exact ⟨acc, rfl⟩
  | cons pd rest ih =>
    intro old acc hpos
    obtain ⟨p, d⟩ := pd
    have hp : p < old.length := hpos (p, d) (List.mem_cons_self _ _)
    have hpc : old[p]? = some old[p] := List.getElem?_eq_getElem hp
    show ∃ g, (match old[p]? with
      | none => none
      | some oldc => deltaAccGo ψ old (acc - ψ p oldc + ψ p d) rest) = some g
    rw [hpc]
    exact ih old _ (fun q hq => hpos q (List.mem_cons_of_mem _ hq))

theorem deltaAccGo_spec {G : Type} [AddCommGroup G] (ψ : ℕ → MppValue G → G) :
    ∀ (new : List (ℕ × MppValue G)) (old cs : List (MppValue G)) (acc : G),
      (∀ q ∈ new, q.1 < old.length) → (new.map Prod.fst).Nodup →
      overwriteChecked old new = some cs →
      deltaAccGo ψ old acc new =
        some (acc + (accumFrom ψ 0 cs - accumFrom ψ 0 old)) := by
  intro new
  induction new with
  | nil =>
    intro old cs acc _ _ hcs
    simp only [overwriteChecked, Option.some_inj] at hcs
    subst hcs
    show some acc = _
    rw [sub_self, add_zero]
  | cons pd rest ih =>
    intro old cs acc hpos hnd hcs
    obtain ⟨p, d⟩ := pd
    have hp : p < old.length := hpos (p, d) (List.mem_cons_self _ _)
    have hpc : old[p]? = some old[p] := List.getElem?_eq_getElem hp
    simp only [List.map_cons, List.nodup_cons] at hnd
    have hstep : overwriteChecked (old.set p d) rest = some cs := by
      simpa only [overwriteChecked, if_pos hp] using hcs
    show (match old[p]? with
      | none => none
      | some oldc => deltaAccGo ψ old (acc - ψ p oldc + ψ p d) rest) = _
    rw [hpc]
    show deltaAccGo ψ old (acc - ψ p old[p] + ψ p d) rest = _
    have hcong : deltaAccGo ψ old (acc - ψ p old[p] + ψ p d) rest =
        deltaAccGo ψ (old.set p d) (acc - ψ p old[p] + ψ p d) rest := by
      apply deltaAccGo_congr
      intro q hq
      have hne : p ≠ q.1 := fun h => hnd.1 (h ▸ List.mem_map_of_mem Prod.fst hq)
      exact (List.getElem?_set_ne hne).symm
    rw [hcong, ih (old.set p d) cs _
      (fun q hq => by rw [List.length_set]; exact hpos q (List.mem_cons_of_mem _ hq))
      hnd.2 hstep]
    congr 1
    rw [accumFrom_set ψ old 0 p d old[p] hpc]
    have h0p : 0 + p = p := Nat.zero_add p
    rw [h0p]
    abel

/-! ### Counter accounting of the incremental policy (claim C5) -/

/-- Claim C5: on a call to the Merkle++ policy's `hash_nodes` with
`changed = |new_children|`, the computation counter grows by exactly `arity`
when `changed > arity/2` (full recompute) and by exactly `2 × changed`
otherwise, and in the latter branch `2 × changed ≤ arity`. -/
theorem C5_mpp_counter {G : Type} [AddCommGroup G] (ψ : ℕ → MppValue G → G)
    (arity cnt : ℕ) (h0 : G) (old : List (MppValue G))
    (new : List (ℕ × MppValue G)) (hlen : old.length = arity)
    (hpos : ∀ q ∈ new, q.1 < old.length) :
    (hashNodesMpp ψ arity cnt (.internalThin h0) old new).map Prod.snd =
      some (cnt + if arity / 2 < new.length then arity else 2 * new.length) ∧
    (¬ arity / 2 < new.length → 2 * new.length ≤ arity) := by
  constructor
  · by_cases hbr : arity / 2 < new.length
    · obtain ⟨cs, hcs, hlcs, _, _⟩ := overwriteChecked_spec new old hpos
      rw [hlen] at hlcs
      simp [hashNodesMpp, if_pos hbr, hcs, hlcs]
    · obtain ⟨g, hg⟩ := deltaAccGo_isSome ψ new old 0 hpos
      have h2 : 2 * new.length ≤ arity := by omega
      simp [hashNodesMpp, if_neg hbr, hg, h2]
  · intro hbr
    omega

/-- Witness for C5: arity 4, one changed child (delta branch). -/
theorem C5_mpp_counter_witness :
    (([MppValue.leaf 1, MppValue.leaf 2, MppValue.internalThin 3,
        MppValue.leaf 4] : List (MppValue ℤ)).length = 4 ∧
      (∀ q ∈ ([((1 : ℕ), MppValue.leaf 7)] : List (ℕ × MppValue ℤ)),
        q.1 < ([MppValue.leaf 1, MppValue.leaf 2, MppValue.internalThin 3,
          MppValue.leaf 4] : List (MppValue ℤ)).length)) ∧
    ((hashNodesMpp psiInt 4 0 (.internalThin 5)
        [MppValue.leaf 1, MppValue.leaf 2, MppValue.internalThin 3, MppValue.leaf 4]
        [(1, MppValue.leaf 7)]).map Prod.snd =
      some (0 + if 4 / 2 < ([((1 : ℕ), MppValue.leaf 7)] : List (ℕ × MppValue ℤ)).length
        then 4 else 2 * ([((1 : ℕ), MppValue.leaf 7)] : List (ℕ × MppValue ℤ)).length) ∧
      (¬ 4 / 2 < ([((1 : ℕ), MppValue.leaf 7)] : List (ℕ × MppValue ℤ)).length →
        2 * ([((1 : ℕ), MppValue.leaf 7)] : List (ℕ × MppValue ℤ)).length ≤ 4)) :=
  ⟨⟨by decide, by decide⟩,
    C5_mpp_counter psiInt 4 0 5
      [MppValue.leaf 1, MppValue.leaf 2, MppValue.internalThin 3, MppValue.leaf 4]
      [(1, MppValue.leaf 7)] (by decide) (by decide)⟩

/-! ### Algebra of the vector-commitment deltas -/

theorem psiSub {S G : Type} [AddCommGroup S] [AddCommGroup G] (ψ : ℕ → S → G)
    (hadd : ∀ i a b, ψ i (a + b) = ψ i a + ψ i b) (i : ℕ) (a b : S) :
    ψ i (a - b) = ψ i a - ψ i b := by
  have h1 : ψ i (a - b) + ψ i b = ψ i a := by
    rw [← hadd]
    congr 1
    abel
  exact eq_sub_of_add_eq h1

theorem childDelta_sub {S Gc : Type} [AddCommGroup S] (hts : Gc → S) :
    ∀ (o c : VComm S Gc) (δ : S), childDelta hts o c = some δ →
      δ = scalarOf hts c - scalarOf hts o := by
  intro o c δ h
  cases o <;> cases c <;> simp_all [childDelta, scalarOf]

theorem verkleUpdatesGo_congr {S Gc : Type} [AddCommGroup S] (hts : Gc → S) :
    ∀ (new : List (ℕ × VComm S Gc)) (old old' : List (VComm S Gc)),
      (∀ q ∈ new, old[q.1]? = old'[q.1]?) →
      verkleUpdatesGo hts old new = verkleUpdatesGo hts old' new := by
  intro new
  induction new with
  | nil => intro old old' _; rfl
  | cons qc rest ih =>
    intro old old' hsame
    obtain ⟨p, c⟩ := qc
    have hp := hsame (p, c) (List.mem_cons_self _ _)
    show (match old[p]? with
      | none => none
      | some oldc =>
        match childDelta hts oldc c with
        | none => none
        | some d =>
          match verkleUpdatesGo hts old rest with
          | none => none
          | some us => some ((p, d) :: us)) =
      (match old'[p]? with
      | none => none
      | some oldc =>
        match childDelta hts oldc c with
        | none => none
        | some d =>
          match verkleUpdatesGo hts old' rest with
          | none => none
          | some us => some ((p, d) :: us))
    rw [hp]
    cases old'[p]? with
    | none => rfl
    | some oldc =>
      show (match childDelta hts oldc c with
        | none => none
        | some d =>
          match verkleUpdatesGo hts old rest with
          | none => none
          | some us => some ((p, d) :: us)) =
        (match childDelta hts oldc c with
        | none => none
        | some d =>
          match verkleUpdatesGo hts old' rest with
          | none => none
          | some us => some ((p, d) :: us))
      cases childDelta hts oldc c with
      | none => rfl
      | some d =>
        rw [ih old old' (fun q hq => hsame q (List.mem_cons_of_mem _ hq))]

theorem verkleDeltaSum {S G Gc : Type} [AddCommGroup S] [AddCommGroup G]
    (ψ : ℕ → S → G) (hts : Gc → S)
    (hadd : ∀ i a b, ψ i (a + b) = ψ i a + ψ i b) :
    ∀ (new : List (ℕ × VComm S Gc)) (old cs : List (VComm S Gc)),
      (∀ q ∈ new, q.1 < old.length) → (new.map Prod.fst).Nodup →
      (∀ q ∈ new, (childDelta hts (old.getD q.1 .empty) q.2).isSome = true) →
      overwriteChecked old new = some cs →
      ∃ us, verkleUpdatesGo hts old new = some us ∧ us.length = new.length ∧
        (us.map fun u => ψ u.1 u.2).sum =
          verkleCommit ψ hts cs - verkleCommit ψ hts old := by
  intro new
  induction new with
  | nil =>
    intro old cs _ _ _ hcs
    simp only [overwriteChecked, Option.some_inj] at hcs
    subst hcs
    exact ⟨[], rfl, rfl, by simp⟩
  | cons qc rest ih =>
    intro old cs hpos hnd hleg hcs
    obtain ⟨p, c⟩ := qc
    have hp : p < old.length := hpos (p, c) (List.mem_cons_self _ _)
    have hpc : old[p]? = some old[p] := List.getElem?_eq_getElem hp
    have hgd : old.getD p VComm.empty = old[p] := List.getD_eq_getElem old VComm.empty hp
    have hlegp : (childDelta hts (old.getD p VComm.empty) c).isSome = true :=
      hleg (p, c) (List.mem_cons_self _ _)
    rw [hgd] at hlegp
    obtain ⟨δ, hδ⟩ := Option.isSome_iff_exists.mp hlegp
    have hδeq : δ = scalarOf hts c - scalarOf hts old[p] :=
      childDelta_sub hts old[p] c δ hδ
    have hstep : overwriteChecked (old.set p c) rest = some cs := by
      simpa only [overwriteChecked, if_pos hp] using hcs
    simp only [List.map_cons, List.nodup_cons] at hnd
    have hne : ∀ q ∈ rest, p ≠ q.1 := fun q hq h =>
      hnd.1 (h ▸ List.mem_map_of_mem Prod.fst hq)
    have hpos' : ∀ q ∈ rest, q.1 < (old.set p c).length := by
      intro q hq
      rw [List.length_set]
      exact hpos q (List.mem_cons_of_mem _ hq)
    have hleg' : ∀ q ∈ rest,
        (childDelta hts ((old.set p c).getD q.1 VComm.empty) q.2).isSome = true := by
      intro q hq
      rw [List.getD_eq_getElem?_getD, List.getElem?_set_ne (hne q hq),
        ← List.getD_eq_getElem?_getD]
      exact hleg q (List.mem_cons_of_mem _ hq)
    obtain ⟨us, hus, hlenus, hsum⟩ := ih (old.set p c) cs hpos' hnd.2 hleg' hstep
    have hcong : verkleUpdatesGo hts old rest = verkleUpdatesGo hts (old.set p c) rest :=
      verkleUpdatesGo_congr hts rest old (old.set p c)
        (fun q hq => (List.getElem?_set_ne (hne q hq)).symm)
    refine ⟨(p, δ) :: us, ?_, by simp [hlenus], ?_⟩
    · show (match old[p]? with
        | none => none
        | some oldc =>
          match childDelta hts oldc c with
          | none => none
          | some d =>
            match verkleUpdatesGo hts old rest with
            | none => none
            | some us' => some ((p, d) :: us')) = _
      rw [hpc]
      show (match childDelta hts old[p] c with
        | none => none
        | some d =>
          match verkleUpdatesGo hts old rest with
          | none => none
          | some us' => some ((p, d) :: us')) = _
      rw [hδ]
      show (match verkleUpdatesGo hts old rest with
        | none => none
        | some us' => some ((p, δ) :: us')) = _
      rw [hcong, hus]
    · simp only [List.map_cons, List.sum_cons]
      rw [hsum, hδeq]
      have hset : verkleCommit ψ hts (old.set p c) =
          verkleCommit ψ hts old - ψ p (scalarOf hts old[p]) + ψ p (scalarOf hts c) := by
        have h := accumFrom_set (fun i v => ψ i (scalarOf hts v)) old 0 p c old[p] hpc
        simpa [verkleCommit] using h
      rw [hset, psiSub ψ hadd]
      abel

theorem foldl_add_sum {S G : Type} [AddCommGroup G] (ψ : ℕ → S → G) :
    ∀ (us : List (ℕ × S)) (d : G),
      us.foldl (fun d u => d + ψ u.1 u.2) d = d + (us.map fun u => ψ u.1 u.2).sum := by
  intro us
  induction us with
  | nil => intro d; simp
  | cons u rest ih =>
    intro d
    simp only [List.foldl_cons, List.map_cons, List.sum_cons]
    rw [ih, add_assoc]

/-! ### Recompute/incremental equivalence (claim C4) -/

/-- Claim C4: for the incremental (Merkle++) and vector-commitment (Verkle)
policies, whenever the old parent digest is consistent with the old children
(Merkle++: it is `InternalThin` of the accumulated per-child contributions;
Verkle: it is `Empty` and the commitment determined by the old children is the
identity), the digest `hash_nodes` returns — via the delta path or not — is
exactly the digest of a full recomputation from the same final children
(`mppRecomputeDigest` / `verkleRecomputeDigest`): the data-dependent branch
choice is observationally transparent. -/
theorem C4_recompute_equivalence :
    (∀ {G : Type} [AddCommGroup G] (ψ : ℕ → MppValue G → G)
        (arity cnt : ℕ) (old cs : List (MppValue G)) (new : List (ℕ × MppValue G)),
        old.length = arity → (∀ q ∈ new, q.1 < old.length) →
        (new.map Prod.fst).Nodup → overwriteChecked old new = some cs →
        (hashNodesMpp ψ arity cnt (.internalThin (accumFrom ψ 0 old)) old new).map
            Prod.fst = some (mppRecomputeDigest ψ cs)) ∧
    (∀ {S G Gc : Type} [AddCommGroup S] [AddCommGroup G]
        (ψ : ℕ → S → G) (compress : G → Gc) (hts : Gc → S) (arity cnt : ℕ)
        (old cs : List (VComm S Gc)) (new : List (ℕ × VComm S Gc)),
        (∀ i a b, ψ i (a + b) = ψ i a + ψ i b) →
        new.length ≤ arity → (∀ q ∈ new, q.1 < old.length) →
        (new.map Prod.fst).Nodup →
        (∀ q ∈ new, (childDelta hts (old.getD q.1 .empty) q.2).isSome = true) →
        overwriteChecked old new = some cs →
        verkleCommit ψ hts old = 0 →
        (hashNodesVerkle ψ compress hts arity cnt .empty old new).map Prod.fst =
          some (verkleRecomputeDigest ψ compress hts cs)) := by
  constructor
  · intro G instG ψ arity cnt old cs new hlen hpos hnd hcs
    by_cases hbr : arity / 2 < new.length
    · have hlcs : cs.length = arity := by
        rw [overwriteChecked_length new old cs hcs, hlen]
      simp [hashNodesMpp, if_pos hbr, hcs, hlcs, mppRecomputeDigest]
    · have hδ := deltaAccGo_spec ψ new old cs 0 hpos hnd hcs
      have h2 : 2 * new.length ≤ arity := by omega
      have hrun : hashNodesMpp ψ arity cnt (.internalThin (accumFrom ψ 0 old)) old new =
          some (.internalThin (accumFrom ψ 0 old +
            (0 + (accumFrom ψ 0 cs - accumFrom ψ 0 old))), cnt + 2 * new.length) := by
        simp [hashNodesMpp, if_neg hbr, hδ, h2]
      have hval : accumFrom ψ 0 old + (0 + (accumFrom ψ 0 cs - accumFrom ψ 0 old)) =
          (0 : G) + accumFrom ψ 0 cs := by abel
      rw [hrun, hval]
      rfl
  · intro S G Gc instS instG ψ compress hts arity cnt old cs new hadd hle hpos hnd hleg hcs hold
    obtain ⟨us, hus, hlenus, hsum⟩ := verkleDeltaSum ψ hts hadd new old cs hpos hnd hleg hcs
    have husle : us.length ≤ arity := by omega
    have hdelta : (if us.length ≤ 4 then us.foldl (fun d u => d + ψ u.1 u.2) 0
        else msm ψ us) = verkleCommit ψ hts cs := by
      split_ifs with hser
      · rw [foldl_add_sum, hsum, hold, zero_add, sub_zero]
      · show (us.map fun u => ψ u.1 u.2).sum = _
        rw [hsum, hold, sub_zero]
    have hrun : hashNodesVerkle ψ compress hts arity cnt .empty old new =
        some (.internal (compress (if us.length ≤ 4 then
          us.foldl (fun d u => d + ψ u.1 u.2) 0 else msm ψ us)), cnt + us.length) := by
      simp [hashNodesVerkle, if_pos hle, hus, if_pos husle]
    rw [hrun, hdelta]
    rfl

/-- Witness for C4: the Merkle++ part at ℤ with one changed child of two, the
Verkle part at ℤ with two legal transitions from an all-Empty sibling set. -/
theorem C4_recompute_equivalence_witness :
    ((([MppValue.leaf 3, MppValue.leaf 4] : List (MppValue ℤ)).length = 2 ∧
      (∀ q ∈ ([((0 : ℕ), MppValue.leaf 9)] : List (ℕ × MppValue ℤ)),
        q.1 < ([MppValue.leaf 3, MppValue.leaf 4] : List (MppValue ℤ)).length) ∧
      overwriteChecked ([MppValue.leaf 3, MppValue.leaf 4] : List (MppValue ℤ))
          [(0, MppValue.leaf 9)] = some [MppValue.leaf 9, MppValue.leaf 4]) ∧
      ((hashNodesMpp psiInt 2 0
          (.internalThin (accumFrom psiInt 0 [MppValue.leaf 3, MppValue.leaf 4]))
          [MppValue.leaf 3, MppValue.leaf 4] [(0, MppValue.leaf 9)]).map Prod.fst =
        some (mppRecomputeDigest psiInt [MppValue.leaf 9, MppValue.leaf 4]))) ∧
    ((([((0 : ℕ), VComm.leaf (5 : ℤ)), (2, VComm.internal (7 : ℤ))] :
          List (ℕ × VComm ℤ ℤ)).length ≤ 3 ∧
      overwriteChecked [VComm.empty, VComm.empty, VComm.empty]
          [(0, VComm.leaf (5 : ℤ)), (2, VComm.internal (7 : ℤ))] =
        some [VComm.leaf 5, VComm.empty, VComm.internal 7] ∧
      verkleCommit mulInt (id : ℤ → ℤ) [VComm.empty, VComm.empty, VComm.empty] = 0) ∧
      ((hashNodesVerkle mulInt id (id : ℤ → ℤ) 3 0 .empty
          [VComm.empty, VComm.empty, VComm.empty]
          [(0, VComm.leaf 5), (2, VComm.internal 7)]).map Prod.fst =
        some (verkleRecomputeDigest mulInt id (id : ℤ → ℤ)
          [VComm.leaf 5, VComm.empty, VComm.internal 7]))) :=
  ⟨⟨⟨by decide, by decide, by decide⟩,
    C4_recompute_equivalence.1 psiInt 2 0 [MppValue.leaf 3, MppValue.leaf 4]
      [MppValue.leaf 9, MppValue.leaf 4] [(0, MppValue.leaf 9)]
      (by decide) (by decide) (by decide) (by decide)⟩,
   ⟨⟨by decide, by decide, by decide⟩,
    C4_recompute_equivalence.2 mulInt id (id : ℤ → ℤ) 3 0
      [VComm.empty, VComm.empty, VComm.empty]
      [VComm.leaf 5, VComm.empty, VComm.internal 7]
      [(0, VComm.leaf 5), (2, VComm.internal 7)]
      (fun i a b => by simp only [mulInt]; ring)
      (by decide) (by decide) (by decide) (by decide) (by decide) (by decide)⟩⟩

/-! ### The Verkle tag-transition table (claim C7) -/

theorem verkleUpdatesGo_none {S Gc : Type} [AddCommGroup S] (hts : Gc → S) :
    ∀ (new : List (ℕ × VComm S Gc)) (old : List (VComm S Gc)) (p : ℕ)
      (c oldc : VComm S Gc),
      (p, c) ∈ new → old[p]? = some oldc → childDelta hts oldc c = none →
      verkleUpdatesGo hts old new = none := by
  intro new
  induction new with
  | nil =>
    intro old p c oldc hmem _ _
    exact absurd hmem (List.not_mem_nil _)
  | cons qc rest ih =>
    intro old p c oldc hmem hpc hnone
    obtain ⟨q, c'⟩ := qc
    show (match old[q]? with
      | none => none
      | some oc =>
        match childDelta hts oc c' with
        | none => none
        | some d =>
          match verkleUpdatesGo hts old rest with
          | none => none
          | some us => some ((q, d) :: us)) = none
    rcases List.mem_cons.mp hmem with heq | hmem'
    · have hq : p = q := congrArg Prod.fst heq
      have hc : c = c' := congrArg Prod.snd heq
      rw [← hq, hpc]
      show (match childDelta hts oldc c' with
        | none => none
        | some d =>
          match verkleUpdatesGo hts old rest with
          | none => none
          | some us => some ((p, d) :: us)) = none
      rw [← hc, hnone]
    · cases old[q]? with
      | none => rfl
      | some oc =>
        show (match childDelta hts oc c' with
          | none => none
          | some d =>
            match verkleUpdatesGo hts old rest with
            | none => none
            | some us => some ((q, d) :: us)) = none
        cases childDelta hts oc c' with
        | none => rfl
        | some d =>
          show (match verkleUpdatesGo hts old rest with
            | none => none
            | some us => some ((q, d) :: us)) = none
          rw [ih old p c oldc hmem' hpc hnone]

/-- Claim C7: the Verkle policy's delta computation follows the claimed table
exactly — `(Empty, Leaf y) ↦ y`, `(Empty, Internal g) ↦ hash_to_scalar g`,
`(Leaf y₀, Leaf y₁) ↦ y₁ - y₀`,
`(Internal g₀, Internal g₁) ↦ hash_to_scalar g₁ - hash_to_scalar g₀` — and
`hash_nodes` panics (returns no value) on exactly the remaining five tag
transitions, a panic that propagates from any changed pair. -/
theorem C7_verkle_transition_table {S G Gc : Type} [AddCommGroup S] [AddCommGroup G]
    (ψ : ℕ → S → G) (compress : G → Gc) (hts : Gc → S) :
    (∀ y : S, childDelta hts (VComm.empty : VComm S Gc) (.leaf y) = some y) ∧
    (∀ g : Gc, childDelta hts (VComm.empty : VComm S Gc) (.internal g) = some (hts g)) ∧
    (∀ yo yn : S, childDelta hts (VComm.leaf yo : VComm S Gc) (.leaf yn) =
      some (yn - yo)) ∧
    (∀ go gn : Gc, childDelta hts (VComm.internal go : VComm S Gc) (.internal gn) =
      some (hts gn - hts go)) ∧
    (∀ (go : Gc) (yn : S), childDelta hts (VComm.internal go) (.leaf yn) = none) ∧
    (∀ (yo : S) (gn : Gc), childDelta hts (VComm.leaf yo) (.internal gn) = none) ∧
    (∀ go : Gc, childDelta hts (VComm.internal go : VComm S Gc) .empty = none) ∧
    (∀ yo : S, childDelta hts (VComm.leaf yo : VComm S Gc) .empty = none) ∧
    (childDelta hts (VComm.empty : VComm S Gc) .empty = none) ∧
    (∀ (arity cnt : ℕ) (oldParent : VComm S Gc) (old : List (VComm S Gc))
        (new : List (ℕ × VComm S Gc)) (p : ℕ) (c oldc : VComm S Gc),
      (p, c) ∈ new → old[p]? = some oldc → childDelta hts oldc c = none →
      hashNodesVerkle ψ compress hts arity cnt oldParent old new = none) := by
  refine ⟨fun y => rfl, fun g => rfl, fun yo yn => rfl, fun go gn => rfl,
    fun go yn => rfl, fun yo gn => rfl, fun go => rfl, fun yo => rfl, rfl, ?_⟩
  intro arity cnt oldParent old new p c oldc hmem hpc hnone
  by_cases hle : new.length ≤ arity
  · simp [hashNodesVerkle, if_pos hle,
      verkleUpdatesGo_none hts new old p c oldc hmem hpc hnone]
  · simp [hashNodesVerkle, if_neg hle]

/-- Witness for C7: an `Internal → Leaf` transition at ℤ makes both the delta
computation and the whole `hash_nodes` call fail. -/
theorem C7_verkle_transition_table_witness :
    childDelta (id : ℤ → ℤ) (VComm.internal 5) (VComm.leaf 3) = none ∧
    hashNodesVerkle mulInt id (id : ℤ → ℤ) 4 0 VComm.empty
      [VComm.internal 5] [(0, VComm.leaf 3)] = none :=
  ⟨(C7_verkle_transition_table mulInt id (id : ℤ → ℤ)).2.2.2.2.1 5 3,
   (C7_verkle_transition_table mulInt id (id : ℤ → ℤ)).2.2.2.2.2.2.2.2.2
     4 0 VComm.empty [VComm.internal 5] [(0, VComm.leaf 3)] 0
     (VComm.leaf 3) (VComm.internal 5) (by decide) rfl rfl⟩
